import Mathlib

/-!
Shallow embedding of the note-taking program (src/note.rs, src/parser.rs,
src/manager.rs) and proofs about its specification claims.

Rust strings are modeled as lists of characters (`List Char`); Rust `Vec` as
`List`; the chrono `DateTime<Local>` type as an explicit record of civil fields
plus a UTC offset, with the local timezone modeled as a fixed offset passed as a
parameter.  All definitions are executable.
-/

namespace NoteSpec

/-- Rust char::is_whitespace — the Unicode White_Space property, which is also
the whitespace notion of str::trim, trim_start, trim_end and split_whitespace:
tab through carriage return, space, next line, no-break space, ogham space
mark, the en-quad-to-hair-space range, the line and paragraph separators, and
the narrow no-break, medium mathematical and ideographic spaces. -/
def isWs (c : Char) : Bool :=
  decide (c.toNat = 0x9 ∨ c.toNat = 0xA ∨ c.toNat = 0xB ∨ c.toNat = 0xC ∨ c.toNat = 0xD ∨
    c.toNat = 0x20 ∨ c.toNat = 0x85 ∨ c.toNat = 0xA0 ∨ c.toNat = 0x1680 ∨
    (0x2000 ≤ c.toNat ∧ c.toNat ≤ 0x200A) ∨
    c.toNat = 0x2028 ∨ c.toNat = 0x2029 ∨ c.toNat = 0x202F ∨ c.toNat = 0x205F ∨
    c.toNat = 0x3000)

/-- Rust str::trim_start. -/
def trimStartC (l : List Char) : List Char := l.dropWhile isWs

/-- Rust str::trim_end. -/
def trimEndC (l : List Char) : List Char := (l.reverse.dropWhile isWs).reverse

/-- Rust str::trim. -/
def trimC (l : List Char) : List Char := trimStartC (trimEndC l)

/-- Split a character list at every newline.  The result is never empty and the
pieces never contain a newline; splitting the empty list yields one empty
piece. -/
def splitNl : List Char → List (List Char)
  | [] => [[]]
  | c :: rest =>
    if c = '\n' then [] :: splitNl rest
    else
      match splitNl rest with
      | [] => [[c]]
      | l :: ls => (c :: l) :: ls

/-- Strip one trailing carriage return, as Rust str::lines does on a line
terminated by a newline (the carriage-return-line-feed line ending). -/
def stripCr (l : List Char) : List Char :=
  match l.getLast? with
  | some c => if c = '\r' then l.dropLast else l
  | none => l

/-- Rust str::lines applied to the pieces of the newline split: every piece
before the last was terminated by a newline, so one carriage return before
that newline is stripped; the final piece is unterminated, keeps any carriage
return, and is dropped when empty (a terminal newline produces no further
line, so the empty string has no lines). -/
def rustLinesAux : List (List Char) → List (List Char)
  | [] => []
  | [l] => if l = [] then [] else [l]
  | l :: rest => stripCr l :: rustLinesAux rest

/-- Rust str::lines. -/
def rustLines (cs : List Char) : List (List Char) := rustLinesAux (splitNl cs)

/-- One line of NoteParser::escape_content: a line whose first character after
leading whitespace is the delimiter gets a single backslash prefixed to the
whole line; every other line is kept verbatim. -/
def escLine (l : List Char) : List Char :=
  if (trimStartC l).head? = some '#' then '\\' :: l else l

/-- NoteParser::escape_content. -/
def escapeContent (cs : List Char) : List Char :=
  List.intercalate ['\n'] ((rustLines cs).map escLine)

/-- Whether a list starts with a backslash immediately followed by the
delimiter (Rust starts_with against the two-character pattern). -/
def startsWithBH (l : List Char) : Bool :=
  match l with
  | '\\' :: '#' :: _ => true
  | _ => false

/-- The slice taken by unescape_content: everything up to and including the
backslash of the first backslash-delimiter pair is dropped (the Rust code
slices the line at find + 1, which also discards any characters before that
first occurrence). -/
def dropToBH : List Char → List Char
  | '\\' :: '#' :: rest => '#' :: rest
  | _ :: rest => dropToBH rest
  | [] => []

/-- One line of NoteParser::unescape_content. -/
def unescLine (l : List Char) : List Char :=
  if startsWithBH (trimStartC l) then dropToBH l else l

/-- NoteParser::unescape_content. -/
def unescapeContent (cs : List Char) : List Char :=
  List.intercalate ['\n'] ((rustLines cs).map unescLine)

/-- Abbreviation turning a string literal into the character list the
embedding works on. -/
def strC (s : String) : List Char := s.data

/-- chrono DateTime of Local: the civil (wall-clock) fields together with the
UTC offset in minutes.  The local timezone is modeled as a fixed offset. -/
structure DateTimeL where
  year : Int
  month : Nat
  day : Nat
  hour : Nat
  minute : Nat
  second : Nat
  nano : Nat
  offsetMin : Int
deriving DecidableEq

/-- Days since 1970-01-01 of a civil date (the standard civil-calendar
conversion, written with floor division). -/
def daysFromCivil (y : Int) (m d : Nat) : Int :=
  let yy : Int := if m ≤ 2 then y - 1 else y
  let era : Int := Int.ediv yy 400
  let yoe : Int := yy - era * 400
  let mp : Int := Int.emod (Int.ofNat m + 9) 12
  let doy : Int := Int.ediv (153 * mp + 2) 5 + (Int.ofNat d - 1)
  let doe : Int := yoe * 365 + Int.ediv yoe 4 - Int.ediv yoe 100 + doy
  era * 146097 + doe - 719468

/-- Civil date of a day count since 1970-01-01 (inverse civil-calendar
conversion). -/
def civilFromDays (z0 : Int) : Int × Nat × Nat :=
  let z := z0 + 719468
  let era := Int.ediv z 146097
  let doe := z - era * 146097
  let yoe := Int.ediv (doe - Int.ediv doe 1460 + Int.ediv doe 36524 - Int.ediv doe 146096) 365
  let y := yoe + era * 400
  let doy := doe - (365 * yoe + Int.ediv yoe 4 - Int.ediv yoe 100)
  let mp := Int.ediv (5 * doy + 2) 153
  let d := doy - Int.ediv (153 * mp + 2) 5 + 1
  let m := if mp < 10 then mp + 3 else mp - 9
  (if m ≤ 2 then y + 1 else y, m.toNat, d.toNat)

/-- The UTC instant of a DateTimeL in nanoseconds since the epoch.  chrono
stores a DateTime as this instant plus the offset, and orders DateTimes by
it; timestamp_nanos returns exactly this value. -/
def instantNanos (dt : DateTimeL) : Int :=
  (daysFromCivil dt.year dt.month dt.day * 86400
    + (dt.hour * 3600 + dt.minute * 60 + dt.second : Nat)
    - dt.offsetMin * 60) * 1000000000 + dt.nano

/-- Change the offset of a DateTimeL while keeping the instant: the civil
fields shift by the offset difference. -/
def shiftToOffset (dt : DateTimeL) (newOff : Int) : DateTimeL :=
  let total : Int := daysFromCivil dt.year dt.month dt.day * 1440
    + (dt.hour * 60 + dt.minute : Nat) + (newOff - dt.offsetMin)
  let days := Int.ediv total 1440
  let rem := (Int.emod total 1440).toNat
  match civilFromDays days with
  | (y, m, d) => ⟨y, m, d, rem / 60, rem % 60, dt.second, dt.nano, newOff⟩

/-- chrono with_timezone: the stored naive-UTC instant is kept and only the
offset is replaced, so converting a value to the offset it already carries
changes none of its fields, while converting to a different offset shifts the
civil fields by the offset difference. -/
def withTimezone (newOff : Int) (dt : DateTimeL) : DateTimeL :=
  if dt.offsetMin = newOff then dt else shiftToOffset dt newOff

/-- The character of a single decimal digit. -/
def digitChar (n : Nat) : Char := Char.ofNat (48 + n)

/-- Fixed-width zero-padded decimal rendering, most significant digit first. -/
def padNum : Nat → Nat → List Char
  | 0, _ => []
  | w + 1, n => digitChar (n / 10 ^ w) :: padNum w (n % 10 ^ w)

/-- The year part of chrono to_rfc3339 (zero-padded to four digits; a negative
year gets a leading minus sign). -/
def yearChars (y : Int) : List Char :=
  if y < 0 then '-' :: padNum 4 (-y).toNat else padNum 4 y.toNat

/-- The fractional-second part of chrono to_rfc3339 with SecondsFormat AutoSi:
no digits for zero nanoseconds, otherwise groups of three digits as needed. -/
def fracChars (n : Nat) : List Char :=
  if n = 0 then []
  else if n % 1000000 = 0 then '.' :: padNum 3 (n / 1000000)
  else if n % 1000 = 0 then '.' :: padNum 6 (n / 1000)
  else '.' :: padNum 9 n

/-- The numeric offset part of chrono to_rfc3339: sign, hours, colon,
minutes. -/
def offChars (off : Int) : List Char :=
  (if off < 0 then '-' else '+') :: (padNum 2 (off.natAbs / 60) ++ ':' :: padNum 2 (off.natAbs % 60))

/-- chrono DateTime::to_rfc3339 (SecondsFormat AutoSi, numeric offset). -/
def toRFC3339 (dt : DateTimeL) : List Char :=
  yearChars dt.year ++ '-' :: padNum 2 dt.month ++ '-' :: padNum 2 dt.day
    ++ 'T' :: padNum 2 dt.hour ++ ':' :: padNum 2 dt.minute ++ ':' :: padNum 2 dt.second
    ++ fracChars dt.nano ++ offChars dt.offsetMin

/-- Decimal digit test. -/
def isDigitC (c : Char) : Bool := 48 ≤ c.toNat && c.toNat ≤ 57

/-- Numeric value of a digit character. -/
def digitVal (c : Char) : Nat := c.toNat - 48

/-- Read one decimal digit. -/
def readDigit (c : Char) : Option Nat :=
  if 48 ≤ c.toNat && c.toNat ≤ 57 then some (c.toNat - 48) else none

/-- Read exactly w decimal digits, accumulating their value. -/
def readFixAux : Nat → Nat → List Char → Option (Nat × List Char)
  | 0, acc, cs => some (acc, cs)
  | w + 1, acc, cs =>
    match cs with
    | [] => none
    | c :: rest =>
      match readDigit c with
      | some d => readFixAux w (acc * 10 + d) rest
      | none => none

/-- Read a fixed-width decimal number. -/
def readFix (w : Nat) (cs : List Char) : Option (Nat × List Char) := readFixAux w 0 cs

/-- Require one specific character. -/
def expectC (c : Char) : List Char → Option (List Char)
  | [] => none
  | x :: rest => if x = c then some rest else none

/-- Value of a list of digit characters. -/
def natOfDigits (ds : List Char) : Nat := ds.foldl (fun a c => a * 10 + digitVal c) 0

/-- Nanoseconds of a fractional-second digit run: the first nine digits,
scaled up when fewer than nine are present (chrono consumes the whole run but
keeps at most nanosecond precision). -/
def nanoOfRun (ds : List Char) : Nat :=
  natOfDigits (ds.take 9) * 10 ^ (9 - (ds.take 9).length)

/-- Gregorian leap year. -/
def isLeap (y : Int) : Bool := (Int.emod y 4 = 0 && !(Int.emod y 100 = 0)) || Int.emod y 400 = 0

/-- Days in a month. -/
def daysInMonth (y : Int) (m : Nat) : Nat :=
  if m = 1 || m = 3 || m = 5 || m = 7 || m = 8 || m = 10 || m = 12 then 31
  else if m = 4 || m = 6 || m = 9 || m = 11 then 30
  else if m = 2 then (if isLeap y then 29 else 28)
  else 0

/-- Calendar validity of a year-month-day triple (what chrono from_ymd_opt and
the parse validators accept). -/
def validYmd (y : Int) (m d : Nat) : Bool :=
  1 ≤ m && m ≤ 12 && 1 ≤ d && d ≤ daysInMonth y m

/-- The timezone-offset tail of an RFC 3339 string: Z (either case) or a sign
followed by HH:MM, consuming the rest of the input.  The result is the offset
in minutes. -/
def parseOffsetEnd (cs : List Char) : Option Int :=
  if cs = ['Z'] ∨ cs = ['z'] then some 0
  else
    match cs with
    | [] => none
    | c :: rest =>
      if c = '+' ∨ c = '-' then do
        let (hh, rest1) ← readFix 2 rest
        let rest2 ← expectC ':' rest1
        let (mm, rest3) ← readFix 2 rest2
        if rest3 = [] ∧ hh ≤ 23 ∧ mm ≤ 59 then
          some ((if c = '-' then -1 else 1) * (hh * 60 + mm))
        else none
      else none

/-- The optional fractional-second part of an RFC 3339 string: either a dot
followed by a nonempty digit run, or nothing (zero nanoseconds). -/
def parseFrac (cs : List Char) : Option (Nat × List Char) :=
  match cs with
  | [] => some (0, cs)
  | c :: r =>
    if c = '.' then
      if r.takeWhile isDigitC = [] then none
      else some (nanoOfRun (r.takeWhile isDigitC), r.dropWhile isDigitC)
    else some (0, cs)

/-- A one-character read: the separator between date and time. -/
def readSep (cs : List Char) : Option (Char × List Char) :=
  match cs with
  | c :: rest => some (c, rest)
  | [] => none

/-- chrono Parsed::to_naive_time's leap-second normalization: a parsed second
of 60 is stored as second 59 with the nanosecond count raised by one
billion. -/
def leapNorm (s na : Nat) : Nat × Nat :=
  if s = 60 then (59, na + 1000000000) else (s, na)

/-- chrono DateTime::parse_from_rfc3339, on the grammar the program feeds it:
four-digit year, date, separator (T, t or space), time, optional fractional
seconds introduced by a dot, then a mandatory offset, consuming the whole
input; field ranges are validated.  chrono accepts the leap second 60,
normalized by leapNorm as Parsed::to_naive_time does. -/
def parseRFC3339 (cs : List Char) : Option DateTimeL := do
  let (y, r1) ← readFix 4 cs
  let r2 ← expectC '-' r1
  let (mo, r3) ← readFix 2 r2
  let r4 ← expectC '-' r3
  let (d, r5) ← readFix 2 r4
  let (sep, r6) ← readSep r5
  if sep = 'T' ∨ sep = 't' ∨ sep = ' ' then
    let (h, r7) ← readFix 2 r6
    let r8 ← expectC ':' r7
    let (mi, r9) ← readFix 2 r8
    let r10 ← expectC ':' r9
    let (s, r11) ← readFix 2 r10
    let (na, r13) ← parseFrac r11
    let off ← parseOffsetEnd r13
    if validYmd (Int.ofNat y) mo d ∧ h ≤ 23 ∧ mi ≤ 59 ∧ s ≤ 60 then
      some ⟨Int.ofNat y, mo, d, h, mi, (leapNorm s na).1, (leapNorm s na).2, off⟩
    else none
  else none

/-- The signed timezone item of chrono format %z when parsing: a sign followed
by HH:MM or HHMM. -/
def parseZOff (cs : List Char) : Option (Int × List Char) :=
  match cs with
  | c :: rest =>
    if c = '+' || c = '-' then
      match readFix 2 rest with
      | some (hh, rest1) =>
        let rest2 := match rest1 with
          | ':' :: r => r
          | r => r
        match readFix 2 rest2 with
        | some (mm, rest3) =>
          if hh ≤ 23 && mm ≤ 59 then
            some ((if c = '-' then -1 else 1) * (hh * 60 + mm), rest3)
          else none
        | none => none
      | none => none
    else none
  | [] => none

/-- chrono DateTime::parse_from_str with the format string
Y-m-d H:M:S z (the second fallback in the source), consuming the whole
input; the leap second 60 is accepted and normalized by leapNorm, as
Parsed::to_naive_time does. -/
def parseYmdHmsZ (cs : List Char) : Option DateTimeL := do
  let (y, r1) ← readFix 4 cs
  let r2 ← expectC '-' r1
  let (mo, r3) ← readFix 2 r2
  let r4 ← expectC '-' r3
  let (d, r5) ← readFix 2 r4
  let r6 ← expectC ' ' r5
  let (h, r7) ← readFix 2 r6
  let r8 ← expectC ':' r7
  let (mi, r9) ← readFix 2 r8
  let r10 ← expectC ':' r9
  let (s, r11) ← readFix 2 r10
  let r12 ← expectC ' ' r11
  let (off, r13) ← parseZOff r12
  if r13 = [] && validYmd (Int.ofNat y) mo d && h ≤ 23 && mi ≤ 59 && s ≤ 60 then
    some ⟨Int.ofNat y, mo, d, h, mi, (leapNorm s 0).1, (leapNorm s 0).2, off⟩
  else none

/-- The third fallback in the source calls DateTime::parse_from_str with the
format Y-m-d H:M:S, which contains no timezone item.  chrono can only build a
DateTime when the parsed fields include an offset, so this call fails on every
input; the arm is dead code and is modeled as the constant failure it is. -/
def parseYmdHmsNoTz (cs : List Char) : Option DateTimeL :=
  match cs with
  | _ => none

/-- Rust u32 FromStr: an optional plus sign followed by decimal digits. -/
def readNatStrict (cs : List Char) : Option Nat :=
  match cs with
  | '+' :: rest => if rest ≠ [] && rest.all isDigitC then some (natOfDigits rest) else none
  | _ => if cs ≠ [] && cs.all isDigitC then some (natOfDigits cs) else none

/-- Rust i32 FromStr: an optional sign followed by decimal digits. -/
def readIntStrict (cs : List Char) : Option Int :=
  match cs with
  | '-' :: rest =>
    if rest ≠ [] && rest.all isDigitC then some (-(natOfDigits rest : Int)) else none
  | '+' :: rest =>
    if rest ≠ [] && rest.all isDigitC then some ((natOfDigits rest : Int)) else none
  | _ => if cs ≠ [] && cs.all isDigitC then some ((natOfDigits cs : Int)) else none

/-- chrono NaiveDate::parse_from_str with a year-sep-month-sep-day format:
each field is a run of decimal digits (chrono accepts unpadded fields), the
separators must match, the whole input must be consumed and the date must be
calendar-valid. -/
def parseBareDate (sep : Char) (cs : List Char) : Option (Int × Nat × Nat) :=
  let yrun := cs.takeWhile isDigitC
  let r1 := cs.dropWhile isDigitC
  if yrun = [] then none else
  match expectC sep r1 with
  | some r2 =>
    let mrun := r2.takeWhile isDigitC
    let r3 := r2.dropWhile isDigitC
    if mrun = [] then none else
    match expectC sep r3 with
    | some r4 =>
      let drun := r4.takeWhile isDigitC
      let r5 := r4.dropWhile isDigitC
      if drun = [] || !(r5 = []) then none else
      if validYmd (natOfDigits yrun : Int) (natOfDigits mrun) (natOfDigits drun) then
        some ((natOfDigits yrun : Int), natOfDigits mrun, natOfDigits drun)
      else none
    | none => none
  | none => none

/-- NoteParser::parse_manual_date: split on slash (or else dash), require
exactly three parts, parse them strictly, and validate through
from_ymd_opt. -/
def parseManualDate (cs : List Char) : Option (Int × Nat × Nat) :=
  let parts :=
    if cs.contains '/' then some (List.splitOn '/' cs)
    else if cs.contains '-' then some (List.splitOn '-' cs)
    else none
  match parts with
  | some [p1, p2, p3] =>
    match readIntStrict p1, readNatStrict p2, readNatStrict p3 with
    | some y, some m, some d => if validYmd y m d then some (y, m, d) else none
    | _, _, _ => none
  | _ => none

/-- NoteParser::parse_simple_date.  The two Windows-style formats in the
source use the nonstandard hash-flag specifiers, which chrono rejects as a bad
format, so those two attempts always fail and contribute nothing. -/
def parseSimpleDate (cs : List Char) : Option (Int × Nat × Nat) :=
  match parseBareDate '/' cs with
  | some v => some v
  | none =>
    match parseBareDate '-' cs with
    | some v => some v
    | none => parseManualDate cs

/-- The timestamp-parsing chain of NoteParser::parse_notes_from_text.  The
now parameter stands for Local::now() at parse time and localOff for the
local timezone offset in minutes; a bare date is given midnight local time. -/
def parseTsChain (now : DateTimeL) (localOff : Int) (cs : List Char) : DateTimeL :=
  match parseRFC3339 cs with
  | some dt => withTimezone localOff dt
  | none =>
    match parseYmdHmsZ cs with
    | some dt => withTimezone localOff dt
    | none =>
      match parseYmdHmsNoTz cs with
      | some dt => withTimezone localOff dt
      | none =>
        match parseSimpleDate cs with
        | some (y, m, d) => ⟨y, m, d, 0, 0, 0, 0, localOff⟩
        | none => now

/-- Rust str::split_whitespace, with an accumulator for the current token
(kept in reverse). -/
def splitWsAux : List Char → List Char → List (List Char)
  | [], acc => if acc = [] then [] else [acc.reverse]
  | c :: rest, acc =>
    if isWs c then
      if acc = [] then splitWsAux rest [] else acc.reverse :: splitWsAux rest []
    else splitWsAux rest (c :: acc)

/-- Rust str::split_whitespace: the maximal runs of non-whitespace
characters. -/
def splitWs (cs : List Char) : List (List Char) := splitWsAux cs []

/-- A single persisted note (src/note.rs). -/
structure Note where
  id : List Char
  content : List Char
  timestamp : DateTimeL
deriving DecidableEq

/-- The block-terminating test of the content-collection loop: the line's
trimmed form starts with the delimiter and its trim_start form is not an
escaped line. -/
def isBlockEnd (l : List Char) : Bool :=
  (trimC l).head? = some '#' && !startsWithBH (trimStartC l)

/-- The scanning loop of NoteParser::parse_notes_from_text, with explicit fuel
(one unit per processed line, so the length of the line list suffices).  The
first token of a header line always starts with the delimiter, so dropping its
first character models the one-byte slice in the source. -/
def parseNotesAuxF (now : DateTimeL) (localOff : Int) : Nat → List (List Char) → List Note
  | 0, _ => []
  | _, [] => []
  | fuel + 1, l :: rest =>
    let t := trimC l
    if t = [] then parseNotesAuxF now localOff fuel rest
    else if t.head? = some '#' then
      let parts := splitWs t
      if 2 ≤ parts.length then
        let id := (parts.headD []).tail
        let dateStr := List.intercalate [' '] parts.tail
        let ts := parseTsChain now localOff dateStr
        let contentLines := rest.takeWhile (fun x => !isBlockEnd x)
        let rest2 := rest.dropWhile (fun x => !isBlockEnd x)
        let content := trimC (unescapeContent (List.intercalate ['\n'] contentLines))
        (if content = [] then [] else [Note.mk id content ts]) ++ parseNotesAuxF now localOff fuel rest2
      else parseNotesAuxF now localOff fuel rest
    else parseNotesAuxF now localOff fuel rest

/-- The scanning loop at its natural fuel. -/
def parseNotesAux (now : DateTimeL) (localOff : Int) (lines : List (List Char)) : List Note :=
  parseNotesAuxF now localOff lines.length lines

/-- NoteParser::parse_notes_from_text.  The source always returns Ok, so the
model returns the plain list of notes. -/
def parseNotesFromText (now : DateTimeL) (localOff : Int) (cs : List Char) : List Note :=
  parseNotesAux now localOff (rustLines cs)

/-- The descending-timestamp comparison used by save_notes and list_notes:
the sort comparator is cmp of b against a, so a precedes b when b's instant is
at most a's. -/
def tsGe (a b : Note) : Prop := instantNanos b.timestamp ≤ instantNanos a.timestamp

instance : DecidableRel tsGe := fun a b => by
  unfold tsGe
  infer_instance

instance : IsTotal Note tsGe :=
  ⟨fun a b => le_total (instantNanos b.timestamp) (instantNanos a.timestamp)⟩

instance : IsTrans Note tsGe :=
  ⟨fun _ _ _ hab hbc => le_trans hbc hab⟩

/-- The stable descending sort performed by save_notes.  Rust sort_by is a
stable sort, and a stable sort by a total comparator is unique, so insertion
sort computes exactly its result. -/
def sortNotesDesc (l : List Note) : List Note := List.insertionSort tsGe l

/-- The header line written for a note: delimiter, id, space, RFC 3339
timestamp. -/
def headerChars (n : Note) : List Char := '#' :: n.id ++ ' ' :: toRFC3339 n.timestamp

/-- One iteration of the save_notes loop: header line, escaped content, and
the newline pushed after every block. -/
def noteBlock (n : Note) : List Char := headerChars n ++ '\n' :: (escapeContent n.content ++ ['\n'])

/-- NoteManager::save_notes: the file text it writes.  The separating newline
pushed before every block except the first makes the result an
intercalation. -/
def saveNotesText (l : List Note) : List Char :=
  List.intercalate ['\n'] ((sortNotesDesc l).map noteBlock)

/-- The in-memory manager state together with the bytes of the store file it
last wrote (all I/O is modeled by this field). -/
structure MState where
  notes : List Note
  file : List Char
deriving DecidableEq

/-- The result type of remove_note_by_id (src/note.rs RemoveResult). -/
inductive RemoveResult where
  | removed (id : List Char)
  | notFound
  | ambiguous (ids : List (List Char))
deriving DecidableEq

/-- The ids of the stored notes, in order. -/
def noteIds (l : List Note) : List (List Char) := l.map (fun n => n.id)

/-- NoteManager::remove_note_by_id: prefix match against all ids; zero
matches reports NotFound, exactly one removes (by id equality, as retain
does) and saves, several report all matching ids. -/
def removeNoteById (st : MState) (pre : List Char) : RemoveResult × MState :=
  let matching := st.notes.filter (fun n => pre.isPrefixOf n.id)
  match matching with
  | [] => (RemoveResult.notFound, st)
  | [n] =>
    let notes' := st.notes.filter (fun m => decide (m.id ≠ n.id))
    (RemoveResult.removed n.id, MState.mk notes' (saveNotesText notes'))
  | _ => (RemoveResult.ambiguous (matching.map (fun n => n.id)), st)

/-- Rust format with the x specifier applied to a u64: lowercase hexadecimal
digits, no padding.  Sixteen units of fuel cover every 64-bit value. -/
def hexDigitChar (n : Nat) : Char := if n < 10 then Char.ofNat (48 + n) else Char.ofNat (87 + n)

/-- Hexadecimal rendering with explicit fuel (one digit per unit). -/
def toHexF : Nat → Nat → List Char
  | 0, _ => []
  | f + 1, n => if n < 16 then [hexDigitChar n] else toHexF f (n / 16) ++ [hexDigitChar (n % 16)]

/-- Hexadecimal rendering of a 64-bit hash value. -/
def toHex (n : Nat) : List Char := toHexF 16 n

/-- The retry loop of Note::generate_unique_id.  The hasher argument models
DefaultHasher (SipHash-1-3) applied to the tuple of content, timestamp
nanoseconds and counter; its value is reduced modulo 2 to the 64 as a u64.
When the candidate made of the first four hex digits collides and the fuel is
spent (the source gives up once the incremented counter exceeds 65536), the
first eight hex digits of the last hash are returned without a further
check. -/
def genIdLoop (hasher : List Char → Int → Nat → Nat) (content : List Char) (ts : Int)
    (existing : List (List Char)) : Nat → Nat → List Char
  | counter, fuel =>
    let h := hasher content ts counter % (2 ^ 64)
    let id := (toHex h).take 4
    if existing.contains id then
      match fuel with
      | 0 => (toHex h).take 8
      | f + 1 => genIdLoop hasher content ts existing (counter + 1) f
    else id

/-- Note::generate_unique_id: counters start at 0 and at most 65537 are
tried. -/
def generateUniqueId (hasher : List Char → Int → Nat → Nat) (content : List Char) (ts : Int)
    (existing : List (List Char)) : List Char :=
  genIdLoop hasher content ts existing 0 65536

/-- Note::new: the creation timestamp is taken at call time (a parameter
here) and its nanosecond instant is fed to the id generator. -/
def noteNew (hasher : List Char → Int → Nat → Nat) (content : List Char) (nowTs : DateTimeL)
    (existing : List (List Char)) : Note :=
  Note.mk (generateUniqueId hasher content (instantNanos nowTs) existing) content nowTs

/-- NoteManager::add_note. -/
def addNote (hasher : List Char → Int → Nat → Nat) (st : MState) (content : List Char)
    (nowTs : DateTimeL) : List Char × MState :=
  let existing := noteIds st.notes
  let n := noteNew hasher content nowTs existing
  let notes' := st.notes ++ [n]
  (n.id, MState.mk notes' (saveNotesText notes'))

/-- One iteration of the import loop of NoteManager::import_from_file: the
conflict test is against `existing`, the ids captured before the loop, while
regeneration checks the current ids (of the notes accumulated so far) chained
with the conflicting one; the imported timestamp is kept. -/
def importStep (hasher : List Char → Int → Nat → Nat) (nowGen : DateTimeL)
    (existing : List (List Char)) (acc : List Note × Nat) (im : Note) : List Note × Nat :=
  let id1 :=
    if existing.contains im.id then
      (noteNew hasher im.content nowGen (noteIds acc.1 ++ [im.id])).id
    else im.id
  (acc.1 ++ [Note.mk id1 im.content im.timestamp], acc.2 + 1)

/-- NoteManager::import_from_file, applied to the text of the imported file.
now and nowGen stand for Local::now() at parse time and at regeneration
time. -/
def importFromText (hasher : List Char → Int → Nat → Nat) (localOff : Int) (st : MState)
    (text : List Char) (now nowGen : DateTimeL) : Nat × MState :=
  if trimC text = [] then (0, st)
  else if parseNotesFromText now localOff text = [] then (0, st)
  else
    let res := (parseNotesFromText now localOff text).foldl
      (importStep hasher nowGen (noteIds st.notes)) (st.notes, 0)
    (res.2, MState.mk res.1 (saveNotesText res.1))

/-- The store mutations whose sequencing claim C3 quantifies over, with the
call-time clock as data. -/
inductive Op where
  | add (content : List Char) (nowTs : DateTimeL)
  | remove (pre : List Char)

/-- Apply one operation to the manager state. -/
def applyOp (hasher : List Char → Int → Nat → Nat) (st : MState) : Op → MState
  | Op.add content nowTs => (addNote hasher st content nowTs).2
  | Op.remove pre => (removeNoteById st pre).2

/-- Apply a sequence of operations. -/
def applyOps (hasher : List Char → Int → Nat → Nat) (st : MState) (ops : List Op) : MState :=
  ops.foldl (applyOp hasher) st

/-- Freshness of every id generated along a trace: each add operation's
generated id avoids the ids present at that point.  The source guarantees this
whenever the retry loop exits through its membership check, which is every
practically constructible run. -/
def TraceFresh (hasher : List Char → Int → Nat → Nat) : MState → List Op → Prop
  | _, [] => True
  | st, op :: rest =>
    (match op with
     | Op.add content nowTs =>
       generateUniqueId hasher content (instantNanos nowTs) (noteIds st.notes) ∉ noteIds st.notes
     | Op.remove _ => True)
    ∧ TraceFresh hasher (applyOp hasher st op) rest

/-- Range validity of the civil fields of a timestamp, as both the renderer
and the parsers constrain them.  Every value the program builds from a real
clock satisfies this. -/
def validTs (dt : DateTimeL) : Prop :=
  0 ≤ dt.year ∧ dt.year ≤ 9999 ∧ validYmd dt.year dt.month dt.day = true ∧
  dt.hour ≤ 23 ∧ dt.minute ≤ 59 ∧ dt.second ≤ 59 ∧ dt.nano < 1000000000 ∧
  dt.offsetMin.natAbs < 1440

instance (dt : DateTimeL) : Decidable (validTs dt) := by
  unfold validTs
  infer_instance

/-- A content line that survives the escape and unescape pair: if its first
non-whitespace character is the delimiter then the delimiter is its very first
character (no indentation), and its leading non-whitespace characters are not
a backslash followed by the delimiter. -/
def goodLine (l : List Char) : Prop :=
  ((trimStartC l).head? = some '#' → l.head? = some '#') ∧ startsWithBH (trimStartC l) = false

instance (l : List Char) : Decidable (goodLine l) := by
  unfold goodLine
  infer_instance

/-- Content that the text format stores faithfully: nonempty, with no leading
or trailing whitespace (hence stable under trimming and without a trailing
newline), free of carriage returns, and made of good lines. -/
def goodContent (c : List Char) : Prop :=
  c ≠ [] ∧ (∀ d, c.head? = some d → isWs d = false) ∧
  (∀ d, c.getLast? = some d → isWs d = false) ∧ '\r' ∉ c ∧ ∀ l ∈ splitNl c, goodLine l

instance (c : List Char) : Decidable (goodContent c) := by
  unfold goodContent
  infer_instance

/-- An id the header line carries faithfully: nonempty and free of
whitespace. -/
def goodId (i : List Char) : Prop := i ≠ [] ∧ ∀ c ∈ i, isWs c = false

instance (i : List Char) : Decidable (goodId i) := by
  unfold goodId
  infer_instance

/-- A note that the serialize-parse round trip reproduces exactly: good id and
content, an in-range timestamp, and the local offset (which every
DateTime-of-Local value carries). -/
def goodNote (localOff : Int) (n : Note) : Prop :=
  goodId n.id ∧ goodContent n.content ∧ validTs n.timestamp ∧ n.timestamp.offsetMin = localOff

instance (localOff : Int) (n : Note) : Decidable (goodNote localOff n) := by
  unfold goodNote
  infer_instance

/-- Content whose serialized block keeps its shape: nonempty, free of carriage
returns, and without a trailing newline. -/
def tidyContent (c : List Char) : Prop :=
  c ≠ [] ∧ '\r' ∉ c ∧ ∀ d, c.getLast? = some d → d ≠ '\n'

instance (c : List Char) : Decidable (tidyContent c) := by
  unfold tidyContent
  infer_instance

/-- A note whose serialized block is one header line followed by its escaped
content lines: whitespace-free nonempty id, tidy content, in-range
timestamp. -/
def goodBlockNote (n : Note) : Prop :=
  goodId n.id ∧ tidyContent n.content ∧ validTs n.timestamp

instance (n : Note) : Decidable (goodBlockNote n) := by
  unfold goodBlockNote
  infer_instance

/-- A serialized block without its trailing newline: header line plus escaped
content. -/
def blockBody (n : Note) : List Char := headerChars n ++ '\n' :: escapeContent n.content

/-- The lines of a serialized block: the header line followed by the escaped
content lines. -/
def blockLines (n : Note) : List (List Char) :=
  headerChars n :: (splitNl n.content).map escLine

lemma trimStartC_cons_of_not_ws {c : Char} {l : List Char} (h : isWs c = false) :
    trimStartC (c :: l) = c :: l := by
  simp [trimStartC, List.dropWhile_cons, h]

lemma trimEndC_concat_of_not_ws {c : Char} {l : List Char} (h : isWs c = false) :
    trimEndC (l ++ [c]) = l ++ [c] := by
  simp [trimEndC, List.dropWhile_cons, h]

lemma trimEndC_concat_of_ws {c : Char} {l : List Char} (h : isWs c = true) :
    trimEndC (l ++ [c]) = trimEndC l := by
  simp [trimEndC, List.dropWhile_cons, h]

lemma trimC_eq_self {l : List Char}
    (hh : ∀ d, l.head? = some d → isWs d = false)
    (hl : ∀ d, l.getLast? = some d → isWs d = false) : trimC l = l := by
  rcases hlast : l.getLast? with _ | d
  · rw [List.getLast?_eq_none_iff] at hlast
    subst hlast
    rfl
  · obtain ⟨l0, rfl⟩ := List.getLast?_eq_some_iff.mp hlast
    have hd : isWs d = false := hl d hlast
    unfold trimC
    rw [trimEndC_concat_of_not_ws hd]
    rcases hc : (l0 ++ [d]).head? with _ | c
    · simp at hc
    · obtain ⟨t, ht⟩ := List.head?_eq_some_iff.mp hc
      rw [ht]
      exact trimStartC_cons_of_not_ws (hh c hc)

lemma trimC_concat_nl (l : List Char) : trimC (l ++ ['\n']) = trimC l := by
  unfold trimC
  rw [trimEndC_concat_of_ws (by decide)]

lemma length_dropWhile_le {α : Type} (p : α → Bool) (l : List α) :
    (l.dropWhile p).length ≤ l.length := by
  induction l with
  | nil => simp
  | cons c t ih =>
    by_cases h : p c
    · rw [List.dropWhile_cons_of_pos h]
      exact le_trans ih (Nat.le_succ _)
    · rw [List.dropWhile_cons_of_neg h]

lemma head?_trimC_cons {c : Char} {l : List Char} (h : isWs c = false) :
    (trimC (c :: l)).head? = some c := by
  have hrev : (c :: l).reverse = l.reverse ++ [c] := by simp
  have hshape : ∃ ys, trimEndC (c :: l) = c :: ys := by
    unfold trimEndC
    rw [hrev, List.dropWhile_append]
    by_cases he : (l.reverse.dropWhile isWs).isEmpty
    · rw [if_pos he, List.dropWhile_cons_of_neg (by simp [h])]
      exact ⟨[], by simp⟩
    · rw [if_neg he]
      exact ⟨(l.reverse.dropWhile isWs).reverse, by simp⟩
  obtain ⟨ys, hys⟩ := hshape
  unfold trimC
  rw [hys, trimStartC_cons_of_not_ws h]
  simp

lemma exists_ws_suffix (l : List Char) :
    ∃ s, l = trimEndC l ++ s ∧ ∀ c ∈ s, isWs c = true := by
  refine ⟨(l.reverse.takeWhile isWs).reverse, ?_, ?_⟩
  · conv_lhs => rw [show l = ((l.reverse.takeWhile isWs) ++ (l.reverse.dropWhile isWs)).reverse by
      rw [List.takeWhile_append_dropWhile]; simp]
    rw [List.reverse_append]
    rfl
  · intro c hc
    simp only [List.mem_reverse] at hc
    exact List.mem_takeWhile_imp hc

lemma head?_trimC_imp {l : List Char} {c : Char} (h : (trimC l).head? = some c) :
    (trimStartC l).head? = some c := by
  obtain ⟨s, hdec, _⟩ := exists_ws_suffix l
  have h' : ((trimEndC l).dropWhile isWs).head? = some c := h
  have hne : ¬((trimEndC l).dropWhile isWs).isEmpty := by
    intro he
    rw [List.isEmpty_iff] at he
    rw [he] at h'
    simp at h'
  have hstart : trimStartC l = (trimEndC l).dropWhile isWs ++ s := by
    unfold trimStartC
    conv_lhs => rw [hdec]
    rw [List.dropWhile_append, if_neg hne]
  rw [hstart]
  rcases hx : (trimEndC l).dropWhile isWs with _ | ⟨x, xs⟩
  · rw [hx] at h'
    simp at h'
  · rw [hx] at h'
    simp only [List.head?_cons, Option.some.injEq] at h'
    simp [h']

/-! ### splitNl lemmas -/

lemma splitNl_ne_nil (cs : List Char) : splitNl cs ≠ [] := by
  induction cs with
  | nil => simp [splitNl]
  | cons c rest ih =>
    by_cases h : c = '\n'
    · simp [splitNl, h]
    · simp only [splitNl, if_neg h]
      rcases hs : splitNl rest with _ | ⟨l, ls⟩
      · simp
      · simp

lemma not_nl_mem_splitNl {cs : List Char} {l : List Char} (hl : l ∈ splitNl cs) : '\n' ∉ l := by
  induction cs generalizing l with
  | nil =>
    simp only [splitNl, List.mem_singleton] at hl
    simp [hl]
  | cons c rest ih =>
    by_cases h : c = '\n'
    · simp only [splitNl, if_pos h, List.mem_cons] at hl
      rcases hl with rfl | hl
      · simp
      · exact ih hl
    · simp only [splitNl, if_neg h] at hl
      rcases hs : splitNl rest with _ | ⟨x, xs⟩
      · exact absurd hs (splitNl_ne_nil rest)
      · rw [hs] at hl
        simp only [List.mem_cons] at hl
        rcases hl with rfl | hl
        · intro hm
          simp only [List.mem_cons] at hm
          rcases hm with hm | hm
          · exact h hm.symm
          · exact ih (hs ▸ List.mem_cons_self x xs) hm
        · exact ih (hs ▸ List.mem_cons_of_mem x hl)

lemma mem_of_mem_splitNl {cs l : List Char} {x : Char} (hl : l ∈ splitNl cs) (hx : x ∈ l) :
    x ∈ cs := by
  induction cs generalizing l with
  | nil =>
    simp only [splitNl, List.mem_singleton] at hl
    subst hl
    simp at hx
  | cons c rest ih =>
    by_cases h : c = '\n'
    · simp only [splitNl, if_pos h, List.mem_cons] at hl
      rcases hl with rfl | hl
      · simp at hx
      · exact List.mem_cons_of_mem c (ih hl hx)
    · simp only [splitNl, if_neg h] at hl
      rcases hs : splitNl rest with _ | ⟨y, ys⟩
      · exact absurd hs (splitNl_ne_nil rest)
      · rw [hs] at hl
        simp only [List.mem_cons] at hl
        rcases hl with rfl | hl
        · rcases List.mem_cons.mp hx with rfl | hx
          · exact List.mem_cons_self x rest
          · exact List.mem_cons_of_mem c (ih (hs ▸ List.mem_cons_self y ys) hx)
        · exact List.mem_cons_of_mem c (ih (hs ▸ List.mem_cons_of_mem y hl) hx)

lemma splitNl_cons_nl (rest : List Char) : splitNl ('\n' :: rest) = [] :: splitNl rest := by
  simp [splitNl]

lemma splitNl_cons_not_nl {c : Char} {rest : List Char} (h : ¬(c = '\n')) :
    splitNl (c :: rest) = (c :: (splitNl rest).headD []) :: (splitNl rest).tail := by
  simp only [splitNl, if_neg h]
  rcases hs : splitNl rest with _ | ⟨l, ls⟩
  · exact absurd hs (splitNl_ne_nil rest)
  · simp

lemma splitNl_append_nl {xs : List Char} (ys : List Char) (h : '\n' ∉ xs) :
    splitNl (xs ++ '\n' :: ys) = xs :: splitNl ys := by
  induction xs with
  | nil => simp [splitNl]
  | cons c t ih =>
    have hc : ¬(c = '\n') := fun hc => h (hc ▸ List.mem_cons_self c t)
    have ht : '\n' ∉ t := fun hm => h (List.mem_cons_of_mem c hm)
    rw [List.cons_append, splitNl_cons_not_nl hc, ih ht]
    simp

lemma splitNl_of_not_nl {xs : List Char} (h : '\n' ∉ xs) : splitNl xs = [xs] := by
  induction xs with
  | nil => rfl
  | cons c t ih =>
    have hc : ¬(c = '\n') := fun hc => h (hc ▸ List.mem_cons_self c t)
    have ht : '\n' ∉ t := fun hm => h (List.mem_cons_of_mem c hm)
    rw [splitNl_cons_not_nl hc, ih ht]
    simp

lemma splitNl_concat_nl (ys : List Char) : splitNl (ys ++ ['\n']) = splitNl ys ++ [[]] := by
  induction ys with
  | nil => rfl
  | cons c t ih =>
    by_cases h : c = '\n'
    · subst h
      rw [List.cons_append, splitNl_cons_nl, splitNl_cons_nl, ih]
      simp
    · rw [List.cons_append, splitNl_cons_not_nl h, splitNl_cons_not_nl h, ih]
      rcases hs : splitNl t with _ | ⟨l, ls⟩
      · exact absurd hs (splitNl_ne_nil t)
      · simp

lemma intercalate_cons_of_ne_nil {α : Type} {s x : List α} {xs : List (List α)} (h : xs ≠ []) :
    List.intercalate s (x :: xs) = x ++ s ++ List.intercalate s xs := by
  rcases xs with _ | ⟨y, ys⟩
  · exact absurd rfl h
  · simp [List.intercalate]

lemma intercalate_singleton {α : Type} (s x : List α) : List.intercalate s [x] = x := by
  simp [List.intercalate]

lemma intercalate_cons_head {α : Type} {s l : List α} {ls : List (List α)} {c : α} :
    List.intercalate s ((c :: l) :: ls) = c :: List.intercalate s (l :: ls) := by
  rcases ls with _ | ⟨y, ys⟩
  · rw [intercalate_singleton, intercalate_singleton]
  · rw [show List.intercalate s ((c :: l) :: y :: ys) = (c :: l) ++ s ++ List.intercalate s (y :: ys)
      from intercalate_cons_of_ne_nil (by simp)]
    rw [show List.intercalate s (l :: y :: ys) = l ++ s ++ List.intercalate s (y :: ys)
      from intercalate_cons_of_ne_nil (by simp)]
    simp

lemma intercalate_splitNl (cs : List Char) : List.intercalate ['\n'] (splitNl cs) = cs := by
  induction cs with
  | nil => rfl
  | cons c rest ih =>
    by_cases h : c = '\n'
    · subst h
      rw [splitNl_cons_nl, intercalate_cons_of_ne_nil (splitNl_ne_nil rest)]
      simp [ih]
    · rw [splitNl_cons_not_nl h]
      rcases hs : splitNl rest with _ | ⟨l, ls⟩
      · exact absurd hs (splitNl_ne_nil rest)
      · rw [hs] at ih
        simp only [List.headD_cons, List.tail_cons]
        rw [intercalate_cons_head, ih]

lemma splitNl_intercalate {ls : List (List Char)} (hne : ls ≠ [])
    (h : ∀ l ∈ ls, '\n' ∉ l) :
    splitNl (List.intercalate ['\n'] ls) = ls := by
  induction ls with
  | nil => exact absurd rfl hne
  | cons x xs ih =>
    rcases xs with _ | ⟨y, ys⟩
    · rw [intercalate_singleton]
      exact splitNl_of_not_nl (h x (List.mem_cons_self x []))
    · rw [intercalate_cons_of_ne_nil (by simp)]
      rw [List.append_assoc, show ['\n'] ++ List.intercalate ['\n'] (y :: ys)
        = '\n' :: List.intercalate ['\n'] (y :: ys) by simp]
      rw [splitNl_append_nl _ (h x (List.mem_cons_self x _))]
      rw [ih (by simp) (fun l hl => h l (List.mem_cons_of_mem x hl))]

/-! ### rustLines lemmas -/

lemma mem_of_getLast? {l : List Char} {d : Char} (h : l.getLast? = some d) : d ∈ l := by
  obtain ⟨l0, rfl⟩ := List.getLast?_eq_some_iff.mp h
  simp

lemma stripCr_eq_self {l : List Char} (h : ∀ d, l.getLast? = some d → d ≠ '\r') :
    stripCr l = l := by
  unfold stripCr
  rcases hl : l.getLast? with _ | c
  · rfl
  · show (if c = '\r' then l.dropLast else l) = l
    rw [if_neg (h c hl)]

lemma getLast?_cons_of_ne_nil {a : Char} {l : List Char} (h : l ≠ []) :
    (a :: l).getLast? = l.getLast? := by
  rcases l with _ | ⟨b, t⟩
  · exact absurd rfl h
  · exact List.getLast?_cons_cons

lemma getLast?_cons_of_ne_nil' {a : List Char} {l : List (List Char)} (h : l ≠ []) :
    (a :: l).getLast? = l.getLast? := by
  rcases l with _ | ⟨b, t⟩
  · exact absurd rfl h
  · exact List.getLast?_cons_cons

lemma splitNl_last_ne_nil {cs : List Char} (hne : cs ≠ [])
    (h : ∀ d, cs.getLast? = some d → d ≠ '\n') : (splitNl cs).getLast? ≠ some [] := by
  induction cs with
  | nil => exact absurd rfl hne
  | cons c rest ih =>
    rcases rest with _ | ⟨c2, rest2⟩
    · have hc : ¬(c = '\n') := h c rfl
      rw [splitNl_cons_not_nl hc]
      simp [splitNl]
    · have hlast : (c :: c2 :: rest2).getLast? = (c2 :: rest2).getLast? :=
        List.getLast?_cons_cons
      have ih' : (splitNl (c2 :: rest2)).getLast? ≠ some [] :=
        ih (by simp) (fun d hd => h d (hlast ▸ hd))
      by_cases hc : c = '\n'
      · subst hc
        rw [splitNl_cons_nl]
        rw [getLast?_cons_of_ne_nil' (splitNl_ne_nil _)]
        exact ih'
      · rw [splitNl_cons_not_nl hc]
        rcases hs : splitNl (c2 :: rest2) with _ | ⟨x, xs⟩
        · exact absurd hs (splitNl_ne_nil _)
        · rw [hs] at ih'
          rcases xs with _ | ⟨y, ys⟩
          · simp
          · simp only [List.headD_cons, List.tail_cons]
            rw [getLast?_cons_of_ne_nil' (by simp)]
            rw [getLast?_cons_of_ne_nil' (by simp)] at ih'
            exact ih'

lemma rustLinesAux_eq_self {ls : List (List Char)} (hlast : ls.getLast? ≠ some [])
    (hcr : ∀ l ∈ ls, ∀ d, l.getLast? = some d → d ≠ '\r') :
    rustLinesAux ls = ls := by
  induction ls with
  | nil => rfl
  | cons l rest ih =>
    rcases rest with _ | ⟨m, t⟩
    · have hl : l ≠ [] := by
        intro he
        exact hlast (by rw [he]; rfl)
      show (if l = [] then [] else [l]) = [l]
      rw [if_neg hl]
    · show stripCr l :: rustLinesAux (m :: t) = l :: m :: t
      rw [stripCr_eq_self (hcr l (List.mem_cons_self l _))]
      rw [ih (fun h => hlast (by rw [List.getLast?_cons_cons]; exact h))
        (fun x hx => hcr x (List.mem_cons_of_mem _ hx))]

lemma rustLinesAux_concat_nil {ls : List (List Char)}
    (hcr : ∀ l ∈ ls, ∀ d, l.getLast? = some d → d ≠ '\r') :
    rustLinesAux (ls ++ [[]]) = ls := by
  induction ls with
  | nil => rfl
  | cons l rest ih =>
    rcases rest with _ | ⟨m, t⟩
    · show stripCr l :: rustLinesAux [[]] = [l]
      rw [stripCr_eq_self (hcr l (List.mem_cons_self l _))]
      rfl
    · show stripCr l :: rustLinesAux ((m :: t) ++ [[]]) = l :: m :: t
      rw [stripCr_eq_self (hcr l (List.mem_cons_self l _))]
      rw [ih (fun x hx => hcr x (List.mem_cons_of_mem _ hx))]

lemma rustLines_eq_splitNl {cs : List Char} (hne : cs ≠ [])
    (hlast : ∀ d, cs.getLast? = some d → d ≠ '\n') (hcr : '\r' ∉ cs) :
    rustLines cs = splitNl cs := by
  unfold rustLines
  refine rustLinesAux_eq_self (splitNl_last_ne_nil hne hlast) ?_
  intro l hl d hd hdc
  exact hcr (mem_of_mem_splitNl hl (hdc ▸ mem_of_getLast? hd))

lemma rustLines_intercalate {ls : List (List Char)} (hne : ls ≠ [])
    (hnl : ∀ l ∈ ls, '\n' ∉ l)
    (hcr : ∀ l ∈ ls, ∀ d, l.getLast? = some d → d ≠ '\r')
    (hlast : ls.getLast? ≠ some []) :
    rustLines (List.intercalate ['\n'] ls) = ls := by
  unfold rustLines
  rw [splitNl_intercalate hne hnl]
  exact rustLinesAux_eq_self hlast hcr

lemma intercalate_concat_empty {α : Type} {s : List α} {xs : List (List α)} (h : xs ≠ []) :
    List.intercalate s (xs ++ [[]]) = List.intercalate s xs ++ s := by
  induction xs with
  | nil => exact absurd rfl h
  | cons x t ih =>
    rcases t with _ | ⟨y, ys⟩
    · rw [intercalate_singleton]
      rw [show (([x] : List (List α)) ++ [[]]) = [x, []] by simp]
      rw [intercalate_cons_of_ne_nil (by simp), intercalate_singleton]
      simp
    · rw [List.cons_append, intercalate_cons_of_ne_nil (by simp),
        intercalate_cons_of_ne_nil (by simp), ih (by simp)]
      simp

lemma rustLines_intercalate_concat_nl {ls : List (List Char)} (hne : ls ≠ [])
    (hnl : ∀ l ∈ ls, '\n' ∉ l)
    (hcr : ∀ l ∈ ls, ∀ d, l.getLast? = some d → d ≠ '\r') :
    rustLines (List.intercalate ['\n'] ls ++ ['\n']) = ls := by
  unfold rustLines
  rw [splitNl_concat_nl, splitNl_intercalate hne hnl]
  exact rustLinesAux_concat_nil hcr

/-! ### split_whitespace lemmas -/

lemma splitWsAux_nil (acc : List Char) :
    splitWsAux [] acc = if acc = [] then [] else [acc.reverse] := rfl

lemma splitWsAux_cons (c : Char) (rest acc : List Char) :
    splitWsAux (c :: rest) acc =
      if isWs c then
        (if acc = [] then splitWsAux rest [] else acc.reverse :: splitWsAux rest [])
      else splitWsAux rest (c :: acc) := rfl

lemma splitWsAux_append_nonws {xs : List Char} (ys acc : List Char)
    (h : ∀ c ∈ xs, isWs c = false) :
    splitWsAux (xs ++ ys) acc = splitWsAux ys (xs.reverse ++ acc) := by
  induction xs generalizing acc with
  | nil => simp
  | cons c t ih =>
    rw [List.cons_append, splitWsAux_cons, if_neg (by simp [h c (List.mem_cons_self c t)])]
    rw [ih (c :: acc) (fun x hx => h x (List.mem_cons_of_mem c hx))]
    simp

lemma splitWs_token_space {xs ys : List Char} (hne : xs ≠ [])
    (h : ∀ c ∈ xs, isWs c = false) :
    splitWs (xs ++ ' ' :: ys) = xs :: splitWs ys := by
  unfold splitWs
  rw [splitWsAux_append_nonws (' ' :: ys) [] h, splitWsAux_cons, if_pos (by decide)]
  rw [if_neg (by simp [hne])]
  simp

lemma splitWs_all_nonws {xs : List Char} (hne : xs ≠ []) (h : ∀ c ∈ xs, isWs c = false) :
    splitWs xs = [xs] := by
  unfold splitWs
  rw [show xs = xs ++ [] by simp, splitWsAux_append_nonws [] [] h, splitWsAux_nil]
  rw [if_neg (by simp [hne])]
  simp

/-! ### Digit rendering and parsing lemmas -/

lemma readDigit_digitChar {k : Nat} (h : k < 10) : readDigit (digitChar k) = some k := by
  interval_cases k <;> decide

lemma isDigitC_digitChar {k : Nat} (h : k < 10) : isDigitC (digitChar k) = true := by
  interval_cases k <;> decide

lemma digitVal_digitChar {k : Nat} (h : k < 10) : digitVal (digitChar k) = k := by
  interval_cases k <;> decide

lemma not_ws_of_digit {c : Char} (h : isDigitC c = true) : isWs c = false := by
  unfold isDigitC at h
  simp only [Bool.and_eq_true, decide_eq_true_eq] at h
  unfold isWs
  rw [decide_eq_false_iff_not]
  omega

lemma length_padNum (w n : Nat) : (padNum w n).length = w := by
  induction w generalizing n with
  | zero => rfl
  | succ w ih => simp [padNum, ih]

lemma padNum_ne_nil {w n : Nat} (h : 0 < w) : padNum w n ≠ [] := by
  intro he
  have := length_padNum w n
  rw [he] at this
  simp at this
  omega

lemma padNum_all_digits {w n : Nat} (h : n < 10 ^ w) :
    ∀ c ∈ padNum w n, isDigitC c = true := by
  induction w generalizing n with
  | zero => simp [padNum]
  | succ w ih =>
    intro c hc
    simp only [padNum, List.mem_cons] at hc
    rcases hc with rfl | hc
    · exact isDigitC_digitChar (Nat.div_lt_of_lt_mul (by rw [← pow_succ]; exact h))
    · exact ih (Nat.mod_lt _ (Nat.pos_pow_of_pos w (by norm_num))) c hc

lemma readFixAux_pad {w n : Nat} (acc : Nat) (r : List Char) (h : n < 10 ^ w) :
    readFixAux w acc (padNum w n ++ r) = some (acc * 10 ^ w + n, r) := by
  induction w generalizing n acc with
  | zero =>
    simp only [padNum, List.nil_append, readFixAux]
    have : n = 0 := by omega
    subst this
    simp
  | succ w ih =>
    have hq : n / 10 ^ w < 10 := Nat.div_lt_of_lt_mul (by rw [← pow_succ]; exact h)
    simp only [padNum, List.cons_append, readFixAux, readDigit_digitChar hq]
    rw [ih (acc * 10 + n / 10 ^ w) (Nat.mod_lt _ (Nat.pos_pow_of_pos w (by norm_num)))]
    congr 2
    have hd := Nat.div_add_mod n (10 ^ w)
    rw [pow_succ]
    calc (acc * 10 + n / 10 ^ w) * 10 ^ w + n % 10 ^ w
        = acc * (10 * 10 ^ w) + (10 ^ w * (n / 10 ^ w) + n % 10 ^ w) := by ring
      _ = acc * (10 ^ w * 10) + n := by rw [hd]; ring

lemma readFix_pad {w n : Nat} (r : List Char) (h : n < 10 ^ w) :
    readFix w (padNum w n ++ r) = some (n, r) := by
  unfold readFix
  rw [readFixAux_pad 0 r h]
  simp

lemma expectC_cons_self (c : Char) (r : List Char) : expectC c (c :: r) = some r := by
  simp [expectC]

lemma natOfDigits_pad {w n : Nat} (h : n < 10 ^ w) : natOfDigits (padNum w n) = n := by
  suffices H : ∀ w n acc, n < 10 ^ w →
      (padNum w n).foldl (fun a c => a * 10 + digitVal c) acc = acc * 10 ^ w + n by
    have := H w n 0 h
    simpa [natOfDigits] using this
  intro w
  induction w with
  | zero =>
    intro n acc h
    simp only [padNum, List.foldl_nil]
    omega
  | succ w ih =>
    intro n acc h
    have hq : n / 10 ^ w < 10 := Nat.div_lt_of_lt_mul (by rw [← pow_succ]; exact h)
    simp only [padNum, List.foldl_cons, digitVal_digitChar hq]
    rw [ih _ _ (Nat.mod_lt _ (Nat.pos_pow_of_pos w (by norm_num)))]
    have hd := Nat.div_add_mod n (10 ^ w)
    rw [pow_succ]
    calc (acc * 10 + n / 10 ^ w) * 10 ^ w + n % 10 ^ w
        = acc * (10 * 10 ^ w) + (10 ^ w * (n / 10 ^ w) + n % 10 ^ w) := by ring
      _ = acc * (10 ^ w * 10) + n := by rw [hd]; ring

lemma takeWhile_append_not {α : Type} {p : α → Bool} {xs : List α} {y : α} (ys : List α)
    (hxs : ∀ c ∈ xs, p c = true) (hy : p y = false) :
    (xs ++ y :: ys).takeWhile p = xs ∧ (xs ++ y :: ys).dropWhile p = y :: ys := by
  induction xs with
  | nil =>
    constructor
    · rw [List.nil_append, List.takeWhile_cons_of_neg (by simp [hy])]
    · rw [List.nil_append, List.dropWhile_cons_of_neg (by simp [hy])]
  | cons c t ih =>
    obtain ⟨h1, h2⟩ := ih (fun x hx => hxs x (List.mem_cons_of_mem c hx))
    constructor
    · rw [List.cons_append, List.takeWhile_cons_of_pos (hxs c (List.mem_cons_self c t)), h1]
    · rw [List.cons_append, List.dropWhile_cons_of_pos (hxs c (List.mem_cons_self c t)), h2]

lemma parseOffsetEnd_off {off : Int} (h : off.natAbs < 1440) :
    parseOffsetEnd (offChars off) = some off := by
  have hhh : off.natAbs / 60 ≤ 23 := by omega
  have hmm : off.natAbs % 60 ≤ 59 := by omega
  have h1 : readFix 2 (padNum 2 (off.natAbs / 60) ++ ':' :: padNum 2 (off.natAbs % 60))
      = some (off.natAbs / 60, ':' :: padNum 2 (off.natAbs % 60)) :=
    readFix_pad _ (by omega)
  have h2 : readFix 2 (padNum 2 (off.natAbs % 60)) = some (off.natAbs % 60, []) := by
    rw [show padNum 2 (off.natAbs % 60) = padNum 2 (off.natAbs % 60) ++ [] by simp]
    exact readFix_pad _ (by omega)
  by_cases hneg : off < 0
  · have hoff : offChars off
        = '-' :: (padNum 2 (off.natAbs / 60) ++ ':' :: padNum 2 (off.natAbs % 60)) := by
      unfold offChars
      rw [if_pos hneg]
    rw [hoff]
    unfold parseOffsetEnd
    rw [if_neg (by simp)]
    simp [h1, h2, expectC_cons_self, hhh, hmm]
    rw [abs_of_neg hneg]
    omega
  · have hoff : offChars off
        = '+' :: (padNum 2 (off.natAbs / 60) ++ ':' :: padNum 2 (off.natAbs % 60)) := by
      unfold offChars
      rw [if_neg hneg]
    rw [hoff]
    unfold parseOffsetEnd
    rw [if_neg (by simp)]
    simp [h1, h2, expectC_cons_self, hhh, hmm]
    rw [abs_of_nonneg (le_of_not_lt hneg)]
    omega

/-! ### RFC 3339 round trip -/

lemma daysInMonth_le (y : Int) (m : Nat) : daysInMonth y m ≤ 31 := by
  unfold daysInMonth
  split_ifs <;> omega

lemma validYmd_bounds {y : Int} {m d : Nat} (h : validYmd y m d = true) :
    1 ≤ m ∧ m ≤ 12 ∧ 1 ≤ d ∧ d ≤ 31 := by
  unfold validYmd at h
  simp only [Bool.and_eq_true, decide_eq_true_eq] at h
  have := daysInMonth_le y m
  omega

lemma nanoOfRun_pad {w k : Nat} (hw : w ≤ 9) (hk : k < 10 ^ w) :
    nanoOfRun (padNum w k) = k * 10 ^ (9 - w) := by
  unfold nanoOfRun
  rw [List.take_of_length_le (by rw [length_padNum]; exact hw)]
  rw [natOfDigits_pad hk, length_padNum]

lemma offChars_head (off : Int) :
    ∃ c0 t0, offChars off = c0 :: t0 ∧ isDigitC c0 = false ∧ ¬(c0 = '.') := by
  unfold offChars
  by_cases hneg : off < 0
  · exact ⟨'-', _, by rw [if_pos hneg], by decide, by decide⟩
  · exact ⟨'+', _, by rw [if_neg hneg], by decide, by decide⟩

lemma parseFrac_dot {q w : Nat} {tail : List Char} {c0 : Char} {t0 : List Char}
    (hw0 : 0 < w) (hw : w ≤ 9) (hq : q < 10 ^ w) (htail : tail = c0 :: t0)
    (hdig : isDigitC c0 = false) :
    parseFrac ('.' :: (padNum w q ++ tail)) = some (q * 10 ^ (9 - w), tail) := by
  subst htail
  obtain ⟨ht, hd⟩ := takeWhile_append_not t0 (padNum_all_digits hq) hdig
  simp only [parseFrac, if_true]
  rw [ht, hd]
  rw [if_neg (padNum_ne_nil hw0), nanoOfRun_pad hw hq]

lemma parseFrac_frac {na : Nat} (off : Int) (hna : na < 1000000000) :
    parseFrac (fracChars na ++ offChars off) = some (na, offChars off) := by
  obtain ⟨c0, t0, hshape, hdig, hdot⟩ := offChars_head off
  unfold fracChars
  by_cases h0 : na = 0
  · subst h0
    rw [if_pos rfl, List.nil_append, hshape]
    rcases t0 with _ | ⟨c1, t1⟩
    · simp only [parseFrac]
      rw [if_neg hdot]
    · simp only [parseFrac]
      rw [if_neg hdot]
  · rw [if_neg h0]
    by_cases h6 : na % 1000000 = 0
    · rw [if_pos h6, List.cons_append]
      rw [parseFrac_dot (by norm_num) (by norm_num) (show na / 1000000 < 10 ^ 3 by omega) hshape hdig]
      congr 1
      rw [Prod.mk.injEq]
      exact ⟨by omega, rfl⟩
    · rw [if_neg h6]
      by_cases h3 : na % 1000 = 0
      · rw [if_pos h3, List.cons_append]
        rw [parseFrac_dot (by norm_num) (by norm_num) (show na / 1000 < 10 ^ 6 by omega) hshape hdig]
        congr 1
        rw [Prod.mk.injEq]
        exact ⟨by omega, rfl⟩
      · rw [if_neg h3, List.cons_append]
        rw [parseFrac_dot (by norm_num) (by norm_num) (show na < 10 ^ 9 by omega) hshape hdig]
        congr 1
        rw [Prod.mk.injEq]
        exact ⟨by omega, rfl⟩

lemma parseRFC3339_toRFC3339 {dt : DateTimeL} (hv : validTs dt) :
    parseRFC3339 (toRFC3339 dt) = some dt := by
  obtain ⟨y, mo, d, h, mi, s, na, off⟩ := dt
  obtain ⟨hy0, hy9, hymd, hh, hmi, hs, hna, hoff⟩ := hv
  dsimp only at hy0 hy9 hymd hh hmi hs hna hoff
  have hyb : y.toNat < 10 ^ 4 := by omega
  obtain ⟨hm1, hm12, hd1, hd31⟩ := validYmd_bounds hymd
  have hyy : Int.ofNat y.toNat = y := by
    simpa using Int.toNat_of_nonneg hy0
  have e1 : readFix 4 (padNum 4 y.toNat ++ '-' :: (padNum 2 mo ++ '-' :: (padNum 2 d
      ++ 'T' :: (padNum 2 h ++ ':' :: (padNum 2 mi ++ ':' :: (padNum 2 s
        ++ (fracChars na ++ offChars off)))))))
      = some (y.toNat, '-' :: (padNum 2 mo ++ '-' :: (padNum 2 d
      ++ 'T' :: (padNum 2 h ++ ':' :: (padNum 2 mi ++ ':' :: (padNum 2 s
        ++ (fracChars na ++ offChars off))))))) := readFix_pad _ hyb
  have e2 : readFix 2 (padNum 2 mo ++ '-' :: (padNum 2 d
      ++ 'T' :: (padNum 2 h ++ ':' :: (padNum 2 mi ++ ':' :: (padNum 2 s
        ++ (fracChars na ++ offChars off))))))
      = some (mo, '-' :: (padNum 2 d
      ++ 'T' :: (padNum 2 h ++ ':' :: (padNum 2 mi ++ ':' :: (padNum 2 s
        ++ (fracChars na ++ offChars off)))))) := readFix_pad _ (by omega)
  have e3 : readFix 2 (padNum 2 d
      ++ 'T' :: (padNum 2 h ++ ':' :: (padNum 2 mi ++ ':' :: (padNum 2 s
        ++ (fracChars na ++ offChars off)))))
      = some (d, 'T' :: (padNum 2 h ++ ':' :: (padNum 2 mi ++ ':' :: (padNum 2 s
        ++ (fracChars na ++ offChars off))))) := readFix_pad _ (by omega)
  have e4 : readFix 2 (padNum 2 h ++ ':' :: (padNum 2 mi ++ ':' :: (padNum 2 s
        ++ (fracChars na ++ offChars off))))
      = some (h, ':' :: (padNum 2 mi ++ ':' :: (padNum 2 s
        ++ (fracChars na ++ offChars off)))) := readFix_pad _ (by omega)
  have e5 : readFix 2 (padNum 2 mi ++ ':' :: (padNum 2 s
        ++ (fracChars na ++ offChars off)))
      = some (mi, ':' :: (padNum 2 s ++ (fracChars na ++ offChars off))) :=
    readFix_pad _ (by omega)
  have e6 : readFix 2 (padNum 2 s ++ (fracChars na ++ offChars off))
      = some (s, fracChars na ++ offChars off) := readFix_pad _ (by omega)
  have e7 : parseFrac (fracChars na ++ offChars off) = some (na, offChars off) :=
    parseFrac_frac off hna
  have e8 : parseOffsetEnd (offChars off) = some off := parseOffsetEnd_off hoff
  show parseRFC3339 (toRFC3339 (DateTimeL.mk y mo d h mi s na off)) = _
  unfold toRFC3339 yearChars
  simp only
  rw [if_neg (by omega)]
  unfold parseRFC3339
  simp only [List.append_assoc, List.cons_append, List.nil_append] at e1 e2 e3 e4 e5 e6 e7 ⊢
  rw [e1]
  simp only [Option.bind_eq_bind, Option.some_bind, expectC_cons_self]
  rw [e2]
  simp only [Option.some_bind, expectC_cons_self]
  rw [e3]
  simp only [Option.some_bind, readSep]
  simp only [true_or, if_true]
  rw [e4]
  simp only [Option.some_bind, expectC_cons_self]
  rw [e5]
  simp only [Option.some_bind, expectC_cons_self]
  rw [e6]
  simp only [Option.some_bind]
  rw [e7]
  simp only [Option.some_bind]
  rw [e8]
  simp only [Option.some_bind]
  rw [if_pos (by rw [hyy]; exact ⟨hymd, hh, hmi, by omega⟩)]
  rw [show leapNorm s na = (s, na) from by unfold leapNorm; rw [if_neg (by omega)]]
  rw [hyy]

/-! ### Escape and unescape line lemmas -/

lemma escLine_of_head_hash {l : List Char} (h : l.head? = some '#') : escLine l = '\\' :: l := by
  obtain ⟨t, rfl⟩ := List.head?_eq_some_iff.mp h
  unfold escLine
  rw [trimStartC_cons_of_not_ws (by decide)]
  rw [if_pos (show ('#' :: t).head? = some '#' from rfl)]

lemma escLine_of_not_hash {l : List Char} (h : ¬((trimStartC l).head? = some '#')) :
    escLine l = l := by
  unfold escLine
  rw [if_neg h]

lemma unescLine_escLine {l : List Char} (hg : goodLine l) : unescLine (escLine l) = l := by
  by_cases hh : (trimStartC l).head? = some '#'
  · obtain ⟨t, rfl⟩ := List.head?_eq_some_iff.mp (hg.1 hh)
    rw [escLine_of_head_hash (show ('#' :: t).head? = some '#' from rfl)]
    unfold unescLine
    rw [trimStartC_cons_of_not_ws (by decide)]
    rw [if_pos (show startsWithBH ('\\' :: '#' :: t) = true from rfl)]
    rfl
  · rw [escLine_of_not_hash hh]
    unfold unescLine
    rw [if_neg (by rw [hg.2]; simp)]

lemma escLine_nil : escLine [] = [] := rfl

lemma not_nl_escLine {l : List Char} (h : '\n' ∉ l) : '\n' ∉ escLine l := by
  unfold escLine
  split_ifs
  · intro hm
    rcases List.mem_cons.mp hm with hm | hm
    · exact absurd hm.symm (by decide)
    · exact h hm
  · exact h

lemma getLast?_escLine_ne_cr {l : List Char} (h : ∀ d, l.getLast? = some d → d ≠ '\r') :
    ∀ d, (escLine l).getLast? = some d → d ≠ '\r' := by
  unfold escLine
  split_ifs with hc
  · rcases hl : l with _ | ⟨x, t⟩
    · subst hl
      simp [trimStartC] at hc
    · intro d hd
      rw [getLast?_cons_of_ne_nil (by simp)] at hd
      exact h d (hl ▸ hd)
  · exact h

lemma escLine_ne_nil {l : List Char} (h : l ≠ []) : escLine l ≠ [] := by
  unfold escLine
  split_ifs
  · simp
  · exact h

lemma isBlockEnd_nil : isBlockEnd [] = false := by decide

lemma isBlockEnd_escLine {l : List Char} (hg : goodLine l) : isBlockEnd (escLine l) = false := by
  by_cases hh : (trimStartC l).head? = some '#'
  · obtain ⟨t, rfl⟩ := List.head?_eq_some_iff.mp (hg.1 hh)
    rw [escLine_of_head_hash (show ('#' :: t).head? = some '#' from rfl)]
    unfold isBlockEnd
    rw [trimStartC_cons_of_not_ws (by decide)]
    simp [startsWithBH]
  · rw [escLine_of_not_hash hh]
    unfold isBlockEnd
    have : ¬((trimC l).head? = some '#') := fun hc => hh (head?_trimC_imp hc)
    simp [this]

/-! ### Header line lemmas -/

lemma mem_all_append {P : Char → Prop} {a b : List Char}
    (ha : ∀ c ∈ a, P c) (hb : ∀ c ∈ b, P c) : ∀ c ∈ a ++ b, P c := by
  intro c hc
  rcases List.mem_append.mp hc with hc | hc
  · exact ha c hc
  · exact hb c hc

lemma mem_all_cons {P : Char → Prop} {x : Char} {b : List Char}
    (hx : P x) (hb : ∀ c ∈ b, P c) : ∀ c ∈ x :: b, P c := by
  intro c hc
  rcases List.mem_cons.mp hc with rfl | hc
  · exact hx
  · exact hb c hc

lemma padNum_not_ws {w n : Nat} (h : n < 10 ^ w) : ∀ c ∈ padNum w n, isWs c = false :=
  fun c hc => not_ws_of_digit (padNum_all_digits h c hc)

lemma fracChars_not_ws {n : Nat} (h : n < 1000000000) : ∀ c ∈ fracChars n, isWs c = false := by
  intro c hc
  unfold fracChars at hc
  by_cases h0 : n = 0
  · rw [if_pos h0] at hc
    simp at hc
  · rw [if_neg h0] at hc
    by_cases h6 : n % 1000000 = 0
    · rw [if_pos h6] at hc
      rcases List.mem_cons.mp hc with rfl | hc
      · decide
      · exact padNum_not_ws (by omega) c hc
    · rw [if_neg h6] at hc
      by_cases h3 : n % 1000 = 0
      · rw [if_pos h3] at hc
        rcases List.mem_cons.mp hc with rfl | hc
        · decide
        · exact padNum_not_ws (by omega) c hc
      · rw [if_neg h3] at hc
        rcases List.mem_cons.mp hc with rfl | hc
        · decide
        · exact padNum_not_ws (by omega) c hc

lemma offChars_not_ws {off : Int} (h : off.natAbs < 1440) :
    ∀ c ∈ offChars off, isWs c = false := by
  unfold offChars
  intro c hc
  rw [List.mem_cons] at hc
  rcases hc with rfl | hc
  · split_ifs <;> decide
  · rw [List.mem_append, List.mem_cons] at hc
    rcases hc with hc | rfl | hc
    · exact padNum_not_ws (by omega) c hc
    · decide
    · exact padNum_not_ws (by omega) c hc

lemma toRFC3339_not_ws {dt : DateTimeL} (hv : validTs dt) :
    ∀ c ∈ toRFC3339 dt, isWs c = false := by
  obtain ⟨y, mo, d, h, mi, s, na, off⟩ := dt
  obtain ⟨hy0, hy9, hymd, hh, hmi, hs, hna, hoff⟩ := hv
  dsimp only at hy0 hy9 hymd hh hmi hs hna hoff
  obtain ⟨hm1, hm12, hd1, hd31⟩ := validYmd_bounds hymd
  unfold toRFC3339 yearChars
  dsimp only
  rw [if_neg (by omega)]
  simp only [List.append_assoc, List.cons_append]
  refine mem_all_append (padNum_not_ws (by omega)) (mem_all_cons (by decide) ?_)
  refine mem_all_append (padNum_not_ws (by omega)) (mem_all_cons (by decide) ?_)
  refine mem_all_append (padNum_not_ws (by omega)) (mem_all_cons (by decide) ?_)
  refine mem_all_append (padNum_not_ws (by omega)) (mem_all_cons (by decide) ?_)
  refine mem_all_append (padNum_not_ws (by omega)) (mem_all_cons (by decide) ?_)
  refine mem_all_append (padNum_not_ws (by omega)) ?_
  exact mem_all_append (fracChars_not_ws hna) (offChars_not_ws hoff)

lemma toRFC3339_ne_nil (dt : DateTimeL) : toRFC3339 dt ≠ [] := by
  intro h
  simp [toRFC3339, List.append_eq_nil] at h

lemma startsWithBH_hash_cons (xs : List Char) : startsWithBH ('#' :: xs) = false := rfl

lemma headerChars_eq (n : Note) :
    headerChars n = ('#' :: n.id) ++ ' ' :: toRFC3339 n.timestamp := by
  simp [headerChars]

lemma header_no_nl_cr {n : Note} (hid : goodId n.id) (hv : validTs n.timestamp) :
    ∀ c ∈ headerChars n, c ≠ '\n' ∧ c ≠ '\r' := by
  rw [headerChars_eq]
  refine mem_all_append (mem_all_cons (by decide) ?_) (mem_all_cons (by decide) ?_)
  · intro c hc
    have h := hid.2 c hc
    constructor <;> rintro rfl <;> exact absurd h (by decide)
  · intro c hc
    have h := toRFC3339_not_ws hv c hc
    constructor <;> rintro rfl <;> exact absurd h (by decide)

lemma trimC_header {n : Note} (hid : goodId n.id) (hv : validTs n.timestamp) :
    trimC (headerChars n) = headerChars n := by
  apply trimC_eq_self
  · intro d hd
    rw [headerChars_eq, List.cons_append] at hd
    simp only [List.head?_cons, Option.some.injEq] at hd
    subst hd
    decide
  · intro d hd
    rw [headerChars_eq, List.getLast?_append] at hd
    rw [getLast?_cons_of_ne_nil (toRFC3339_ne_nil _)] at hd
    rcases he : (toRFC3339 n.timestamp).getLast? with _ | e
    · rw [List.getLast?_eq_none_iff] at he
      exact absurd he (toRFC3339_ne_nil _)
    · rw [he] at hd
      simp only [Option.or] at hd
      rw [Option.some.injEq] at hd
      subst hd
      exact toRFC3339_not_ws hv e (mem_of_getLast? he)

lemma splitWs_header {n : Note} (hid : goodId n.id) (hv : validTs n.timestamp) :
    splitWs (headerChars n) = ['#' :: n.id, toRFC3339 n.timestamp] := by
  rw [headerChars_eq]
  rw [splitWs_token_space (by simp) (mem_all_cons (by decide) hid.2)]
  rw [splitWs_all_nonws (toRFC3339_ne_nil _) (toRFC3339_not_ws hv)]

lemma isBlockEnd_header {n : Note} (hid : goodId n.id) (hv : validTs n.timestamp) :
    isBlockEnd (headerChars n) = true := by
  unfold isBlockEnd
  rw [trimC_header hid hv]
  rw [headerChars_eq, List.cons_append]
  rw [trimStartC_cons_of_not_ws (by decide)]
  rw [startsWithBH_hash_cons]
  simp

lemma withTimezone_self {dt : DateTimeL} {off : Int} (h : dt.offsetMin = off) :
    withTimezone off dt = dt := by
  unfold withTimezone
  rw [if_pos h]

lemma parseTsChain_rendered {now dt : DateTimeL} {localOff : Int} (hv : validTs dt)
    (ho : dt.offsetMin = localOff) :
    parseTsChain now localOff (toRFC3339 dt) = dt := by
  unfold parseTsChain
  rw [parseRFC3339_toRFC3339 hv]
  exact withTimezone_self ho

lemma splitNl_intercalate_append {ls : List (List Char)} (rest : List Char) (hne : ls ≠ [])
    (hnl : ∀ l ∈ ls, '\n' ∉ l) :
    splitNl (List.intercalate ['\n'] ls ++ '\n' :: rest) = ls ++ splitNl rest := by
  induction ls with
  | nil => exact absurd rfl hne
  | cons x xs ih =>
    rcases xs with _ | ⟨y, ys⟩
    · rw [intercalate_singleton]
      rw [splitNl_append_nl rest (hnl x (List.mem_cons_self x _))]
      rfl
    · rw [intercalate_cons_of_ne_nil (by simp), List.append_assoc, List.append_assoc]
      rw [List.singleton_append]
      rw [splitNl_append_nl _ (hnl x (List.mem_cons_self x _))]
      rw [ih (by simp) (fun l hl => hnl l (List.mem_cons_of_mem x hl))]
      simp

/-! ### Content round-trip lemmas -/

lemma goodContent_rustLines {c : List Char} (hg : goodContent c) : rustLines c = splitNl c := by
  refine rustLines_eq_splitNl hg.1 (fun d hd hdn => ?_) hg.2.2.2.1
  have := hg.2.2.1 d hd
  rw [hdn] at this
  exact absurd this (by decide)

lemma goodContent_last_piece {c : List Char} (hg : goodContent c) :
    (splitNl c).getLast? ≠ some [] := by
  refine splitNl_last_ne_nil hg.1 fun d hd hdn => ?_
  have := hg.2.2.1 d hd
  rw [hdn] at this
  exact absurd this (by decide)

lemma escLines_ne_nil (c : List Char) : (splitNl c).map escLine ≠ [] := by
  intro h
  rw [List.map_eq_nil] at h
  exact splitNl_ne_nil c h

lemma escLines_not_nl (c : List Char) : ∀ l ∈ (splitNl c).map escLine, '\n' ∉ l := by
  intro l hl
  obtain ⟨p, hp, rfl⟩ := List.mem_map.mp hl
  exact not_nl_escLine (not_nl_mem_splitNl hp)

lemma escLines_no_cr {c : List Char} (hcr : '\r' ∉ c) :
    ∀ l ∈ (splitNl c).map escLine, ∀ d, l.getLast? = some d → d ≠ '\r' := by
  intro l hl
  obtain ⟨p, hp, rfl⟩ := List.mem_map.mp hl
  refine getLast?_escLine_ne_cr fun d hd hdc => ?_
  exact hcr (mem_of_mem_splitNl hp (hdc ▸ mem_of_getLast? hd))

lemma escLines_last_ne_nil {c : List Char} (hg : (splitNl c).getLast? ≠ some []) :
    ((splitNl c).map escLine).getLast? ≠ some [] := by
  rw [List.getLast?_map]
  intro h
  rcases hp : (splitNl c).getLast? with _ | p
  · rw [hp] at h
    exact Option.noConfusion h
  · rw [hp] at h
    have h2 : escLine p = [] := Option.some.inj h
    rcases hpn : p with _ | ⟨x, t⟩
    · exact hg (hpn ▸ hp)
    · exact escLine_ne_nil (by simp [hpn]) (hpn ▸ h2)

lemma map_unescLine_escLines {c : List Char} (hl : ∀ p ∈ splitNl c, goodLine p) :
    ((splitNl c).map escLine).map unescLine = splitNl c := by
  rw [List.map_map]
  refine (List.map_congr_left fun p hp => ?_).trans (List.map_id _)
  exact unescLine_escLine (hl p hp)

lemma unescape_escLines_core {c : List Char} (hcr : '\r' ∉ c)
    (hlast : (splitNl c).getLast? ≠ some []) (hl : ∀ p ∈ splitNl c, goodLine p) :
    unescapeContent (List.intercalate ['\n'] ((splitNl c).map escLine)) = c := by
  unfold unescapeContent
  rw [rustLines_intercalate (escLines_ne_nil c) (escLines_not_nl c)
    (escLines_no_cr hcr) (escLines_last_ne_nil hlast)]
  rw [map_unescLine_escLines hl, intercalate_splitNl]

lemma unescape_escLines {c : List Char} (hg : goodContent c) :
    unescapeContent (List.intercalate ['\n'] ((splitNl c).map escLine)) = c :=
  unescape_escLines_core hg.2.2.2.1 (goodContent_last_piece hg) hg.2.2.2.2

lemma unescape_escLines_sep {c : List Char} (hg : goodContent c) :
    unescapeContent (List.intercalate ['\n'] ((splitNl c).map escLine ++ [[]])) = c := by
  unfold unescapeContent
  rw [intercalate_concat_empty (escLines_ne_nil c)]
  rw [rustLines_intercalate_concat_nl (escLines_ne_nil c) (escLines_not_nl c)
    (escLines_no_cr hg.2.2.2.1)]
  rw [map_unescLine_escLines hg.2.2.2.2, intercalate_splitNl]

lemma trimC_goodContent {c : List Char} (hg : goodContent c) : trimC c = c :=
  trimC_eq_self hg.2.1 hg.2.2.1

lemma escapeContent_good {c : List Char} (hg : goodContent c) :
    escapeContent c = List.intercalate ['\n'] ((splitNl c).map escLine) := by
  unfold escapeContent
  rw [goodContent_rustLines hg]

/-! ### Serialized file structure -/

lemma goodContent_tidy {c : List Char} (hg : goodContent c) : tidyContent c := by
  refine ⟨hg.1, hg.2.2.2.1, fun d hd hdn => ?_⟩
  have := hg.2.2.1 d hd
  rw [hdn] at this
  exact absurd this (by decide)

lemma tidy_splitNl_last {c : List Char} (ht : tidyContent c) :
    (splitNl c).getLast? ≠ some [] :=
  splitNl_last_ne_nil ht.1 ht.2.2

lemma tidy_rustLines {c : List Char} (ht : tidyContent c) : rustLines c = splitNl c :=
  rustLines_eq_splitNl ht.1 ht.2.2 ht.2.1

lemma escapeContent_tidy {c : List Char} (ht : tidyContent c) :
    escapeContent c = List.intercalate ['\n'] ((splitNl c).map escLine) := by
  unfold escapeContent
  rw [tidy_rustLines ht]

lemma takeWhile_all {α : Type} {p : α → Bool} {xs : List α} (h : ∀ x ∈ xs, p x = true) :
    xs.takeWhile p = xs ∧ xs.dropWhile p = [] := by
  induction xs with
  | nil => exact ⟨rfl, rfl⟩
  | cons x t ih =>
    obtain ⟨h1, h2⟩ := ih (fun y hy => h y (List.mem_cons_of_mem x hy))
    exact ⟨by rw [List.takeWhile_cons_of_pos (h x (List.mem_cons_self x t)), h1],
      by rw [List.dropWhile_cons_of_pos (h x (List.mem_cons_self x t)), h2]⟩

lemma mem_intercalate_nilsep {x : List Char} :
    ∀ {ls : List (List (List Char))}, x ∈ List.intercalate [[]] ls →
      x = [] ∨ ∃ b ∈ ls, x ∈ b := by
  intro ls
  induction ls with
  | nil =>
    intro h
    simp [List.intercalate] at h
  | cons b t ih =>
    intro h
    rcases t with _ | ⟨b2, t2⟩
    · rw [intercalate_singleton] at h
      exact Or.inr ⟨b, List.mem_cons_self b [], h⟩
    · rw [intercalate_cons_of_ne_nil (by simp)] at h
      rw [List.append_assoc, List.mem_append] at h
      rcases h with h | h
      · exact Or.inr ⟨b, List.mem_cons_self b _, h⟩
      · rw [List.singleton_append, List.mem_cons] at h
        rcases h with rfl | h
        · exact Or.inl rfl
        · rcases ih h with h | ⟨b3, hb3, hx⟩
          · exact Or.inl h
          · exact Or.inr ⟨b3, List.mem_cons_of_mem b hb3, hx⟩

lemma blockLines_line_facts {n : Note} (hn : goodBlockNote n) :
    ∀ l ∈ blockLines n, '\n' ∉ l ∧ ∀ d, l.getLast? = some d → d ≠ '\r' := by
  obtain ⟨hid, ht, hv⟩ := hn
  intro l hl
  unfold blockLines at hl
  rcases List.mem_cons.mp hl with rfl | hl
  · constructor
    · intro hm
      exact absurd rfl (header_no_nl_cr hid hv '\n' hm).1
    · exact fun d hd => (header_no_nl_cr hid hv d (mem_of_getLast? hd)).2
  · constructor
    · exact escLines_not_nl n.content l hl
    · exact escLines_no_cr ht.2.1 l hl

lemma blockLines_ne_nil (n : Note) : blockLines n ≠ [] := by
  simp [blockLines]

lemma noteBlock_eq (n : Note) : noteBlock n = blockBody n ++ ['\n'] := by
  unfold noteBlock blockBody
  simp [List.append_assoc]

lemma splitNl_noteBlock {n : Note} (hn : goodBlockNote n) :
    splitNl (noteBlock n) = blockLines n ++ [[]] := by
  obtain ⟨hid, ht, hv⟩ := hn
  unfold noteBlock
  rw [escapeContent_tidy ht]
  rw [splitNl_append_nl _ (fun hm => absurd rfl (header_no_nl_cr hid hv '\n' hm).1)]
  rw [splitNl_concat_nl]
  rw [splitNl_intercalate (escLines_ne_nil _) (escLines_not_nl _)]
  rfl

lemma splitNl_noteBlock_append {n : Note} (hn : goodBlockNote n) (rest : List Char) :
    splitNl (noteBlock n ++ '\n' :: rest) = blockLines n ++ [[]] ++ splitNl rest := by
  obtain ⟨hid, ht, hv⟩ := hn
  unfold noteBlock
  rw [escapeContent_tidy ht]
  rw [List.append_assoc, List.cons_append, List.append_assoc, List.singleton_append]
  rw [splitNl_append_nl _ (fun hm => absurd rfl (header_no_nl_cr hid hv '\n' hm).1)]
  rw [splitNl_intercalate_append _ (escLines_ne_nil _) (escLines_not_nl _)]
  rw [splitNl_cons_nl]
  simp [blockLines]

lemma splitNl_saveRaw {l : List Note} (hne : l ≠ []) (h : ∀ n ∈ l, goodBlockNote n) :
    splitNl (List.intercalate ['\n'] (l.map noteBlock))
      = List.intercalate [[]] (l.map blockLines) ++ [[]] := by
  induction l with
  | nil => exact absurd rfl hne
  | cons n t ih =>
    rcases t with _ | ⟨m, t2⟩
    · rw [List.map_singleton, intercalate_singleton, List.map_singleton, intercalate_singleton]
      exact splitNl_noteBlock (h n (List.mem_cons_self n _))
    · have e1 : List.intercalate ['\n'] ((n :: m :: t2).map noteBlock)
          = noteBlock n ++ '\n' :: List.intercalate ['\n'] ((m :: t2).map noteBlock) := by
        rw [List.map_cons, intercalate_cons_of_ne_nil (by simp)]
        simp
      have e2 : List.intercalate [[]] ((n :: m :: t2).map blockLines)
          = blockLines n ++ [] :: List.intercalate [[]] ((m :: t2).map blockLines) := by
        rw [List.map_cons, intercalate_cons_of_ne_nil (by simp)]
        simp
      rw [e1, splitNl_noteBlock_append (h n (List.mem_cons_self n _))]
      rw [ih (by simp) (fun x hx => h x (List.mem_cons_of_mem n hx)), e2]
      simp [List.append_assoc]

lemma rustLines_saveRaw {l : List Note} (hne : l ≠ []) (h : ∀ n ∈ l, goodBlockNote n) :
    rustLines (List.intercalate ['\n'] (l.map noteBlock))
      = List.intercalate [[]] (l.map blockLines) := by
  unfold rustLines
  rw [splitNl_saveRaw hne h]
  refine rustLinesAux_concat_nil ?_
  intro x hx
  rcases mem_intercalate_nilsep hx with rfl | ⟨b, hb, hxb⟩
  · intro d hd
    simp at hd
  · obtain ⟨n, hn, rfl⟩ := List.mem_map.mp hb
    exact (blockLines_line_facts (h n hn) x hxb).2

/-! ### Parse loop lemmas -/

lemma parseNotesAuxF_nil (now : DateTimeL) (off : Int) (F : Nat) :
    parseNotesAuxF now off F [] = [] := by
  cases F <;> rfl

lemma parseNotesAuxF_fuel (now : DateTimeL) (off : Int) :
    ∀ (F1 F2 : Nat) (lines : List (List Char)), lines.length ≤ F1 → lines.length ≤ F2 →
      parseNotesAuxF now off F1 lines = parseNotesAuxF now off F2 lines := by
  intro F1
  induction F1 with
  | zero =>
    intro F2 lines h1 h2
    have hnil : lines = [] := by
      cases lines
      · rfl
      · simp at h1
    subst hnil
    rw [parseNotesAuxF_nil, parseNotesAuxF_nil]
  | succ f ih =>
    intro F2 lines h1 h2
    rcases lines with _ | ⟨l, rest⟩
    · rw [parseNotesAuxF_nil, parseNotesAuxF_nil]
    · rcases F2 with _ | f2
      · simp at h2
      · have hr : rest.length ≤ f := by
          simp only [List.length_cons] at h1
          omega
        have hr2 : rest.length ≤ f2 := by
          simp only [List.length_cons] at h2
          omega
        have hd : (rest.dropWhile (fun x => !isBlockEnd x)).length ≤ rest.length :=
          length_dropWhile_le _ _
        simp only [parseNotesAuxF]
        by_cases hc1 : trimC l = []
        · simp only [if_pos hc1]
          exact ih f2 rest hr hr2
        · simp only [if_neg hc1]
          by_cases hc2 : (trimC l).head? = some '#'
          · simp only [if_pos hc2]
            by_cases hc3 : 2 ≤ (splitWs (trimC l)).length
            · simp only [if_pos hc3]
              rw [ih f2 (rest.dropWhile (fun x => !isBlockEnd x)) (le_trans hd hr)
                (le_trans hd hr2)]
            · simp only [if_neg hc3]
              exact ih f2 rest hr hr2
          · simp only [if_neg hc2]
            exact ih f2 rest hr hr2

lemma parseNotesAux_nil (now : DateTimeL) (off : Int) : parseNotesAux now off [] = [] := rfl

lemma parseNotesAux_header_cons (now : DateTimeL) (localOff : Int) {n : Note}
    (hid : goodId n.id) (hv : validTs n.timestamp) (hoffeq : n.timestamp.offsetMin = localOff)
    (hcne : n.content ≠ []) {rest CL R2 : List (List Char)}
    (htake : rest.takeWhile (fun x => !isBlockEnd x) = CL)
    (hdrop : rest.dropWhile (fun x => !isBlockEnd x) = R2)
    (hcontent : trimC (unescapeContent (List.intercalate ['\n'] CL)) = n.content) :
    parseNotesAux now localOff (headerChars n :: rest)
      = n :: parseNotesAux now localOff R2 := by
  have hR2len : R2.length ≤ rest.length := hdrop ▸ length_dropWhile_le _ _
  show parseNotesAuxF now localOff (headerChars n :: rest).length (headerChars n :: rest) = _
  rw [List.length_cons]
  simp only [parseNotesAuxF]
  rw [trimC_header hid hv]
  rw [if_neg (by rw [headerChars_eq]; simp)]
  rw [if_pos (by rw [headerChars_eq, List.cons_append]; rfl)]
  rw [splitWs_header hid hv]
  rw [if_pos (by simp)]
  simp only [List.headD_cons, List.tail_cons]
  rw [intercalate_singleton]
  rw [parseTsChain_rendered hv hoffeq]
  rw [htake, hdrop, hcontent]
  rw [if_neg hcne]
  rw [parseNotesAuxF_fuel now localOff rest.length R2.length R2 hR2len (le_refl _)]
  rfl

lemma intercalate_blockLines_cons (m : Note) (t2 : List Note) :
    ∃ tail, List.intercalate [[]] ((m :: t2).map blockLines) = headerChars m :: tail := by
  rcases t2 with _ | ⟨x, xs⟩
  · rw [List.map_singleton, intercalate_singleton]
    exact ⟨_, rfl⟩
  · rw [List.map_cons, intercalate_cons_of_ne_nil (by simp)]
    unfold blockLines
    exact ⟨_, rfl⟩

lemma parseNotesAux_fileLines (now : DateTimeL) (localOff : Int) :
    ∀ (l : List Note), (∀ n ∈ l, goodNote localOff n) →
      parseNotesAux now localOff (List.intercalate [[]] (l.map blockLines)) = l := by
  intro l
  induction l with
  | nil => intro _; rfl
  | cons n t ih =>
    intro h
    obtain ⟨hid, hgc, hv, hoffeq⟩ := h n (List.mem_cons_self n t)
    have hGoodLines : ∀ x ∈ (splitNl n.content).map escLine, (fun x => !isBlockEnd x) x = true := by
      intro x hx
      obtain ⟨p, hp, rfl⟩ := List.mem_map.mp hx
      simp [isBlockEnd_escLine (hgc.2.2.2.2 p hp)]
    rcases t with _ | ⟨m, t2⟩
    · rw [List.map_singleton, intercalate_singleton]
      unfold blockLines
      obtain ⟨ht, hd⟩ := takeWhile_all hGoodLines
      rw [parseNotesAux_header_cons now localOff hid hv hoffeq hgc.1 ht hd
        (by rw [unescape_escLines hgc]; exact trimC_goodContent hgc)]
      rw [parseNotesAux_nil]
    · obtain ⟨tail, htail⟩ := intercalate_blockLines_cons m t2
      have hm := h m (List.mem_cons_of_mem n (List.mem_cons_self m t2))
      have e2 : List.intercalate [[]] ((n :: m :: t2).map blockLines)
          = headerChars n :: ((splitNl n.content).map escLine
              ++ [] :: List.intercalate [[]] ((m :: t2).map blockLines)) := by
        rw [List.map_cons, intercalate_cons_of_ne_nil (by simp)]
        simp [blockLines]
      rw [e2]
      have hshape : (splitNl n.content).map escLine ++ [] :: List.intercalate [[]]
            ((m :: t2).map blockLines)
          = ((splitNl n.content).map escLine ++ [[]]) ++ headerChars m :: tail := by
        rw [htail]
        simp
      rw [hshape]
      have hGoodSep : ∀ x ∈ (splitNl n.content).map escLine ++ [[]],
          (fun x => !isBlockEnd x) x = true := by
        intro x hx
        rcases List.mem_append.mp hx with hx | hx
        · exact hGoodLines x hx
        · rw [List.mem_singleton] at hx
          subst hx
          simp [isBlockEnd_nil]
      obtain ⟨ht, hd⟩ := takeWhile_append_not tail hGoodSep
        (show (fun x => !isBlockEnd x) (headerChars m) = false by
          simp [isBlockEnd_header hm.1 hm.2.2.1])
      rw [parseNotesAux_header_cons now localOff hid hv hoffeq hgc.1 ht hd
        (by rw [unescape_escLines_sep hgc]; exact trimC_goodContent hgc)]
      rw [← htail, ih (fun x hx => h x (List.mem_cons_of_mem n hx))]

/-! ### Remaining structural lemmas -/

lemma escapeContent_shape {c : List Char} (ht : tidyContent c) :
    escapeContent c ≠ [] ∧ ∀ d, (escapeContent c).getLast? = some d → d ≠ '\n' := by
  rw [escapeContent_tidy ht]
  have hsplit : splitNl (List.intercalate ['\n'] ((splitNl c).map escLine))
      = (splitNl c).map escLine :=
    splitNl_intercalate (escLines_ne_nil c) (escLines_not_nl c)
  constructor
  · intro he
    rw [he] at hsplit
    exact escLines_last_ne_nil (tidy_splitNl_last ht) (by rw [← hsplit]; rfl)
  · intro d hd hdn
    subst hdn
    obtain ⟨y, hy⟩ := List.getLast?_eq_some_iff.mp hd
    rw [hy, splitNl_concat_nl] at hsplit
    refine escLines_last_ne_nil (tidy_splitNl_last ht) ?_
    rw [← hsplit]
    exact List.getLast?_concat _

lemma saveRaw_intercalate {l : List Note} (hne : l ≠ []) :
    List.intercalate ['\n'] (l.map noteBlock)
      = List.intercalate ['\n', '\n'] (l.map blockBody) ++ ['\n'] := by
  induction l with
  | nil => exact absurd rfl hne
  | cons n t ih =>
    rcases t with _ | ⟨m, t2⟩
    · rw [List.map_singleton, intercalate_singleton, List.map_singleton, intercalate_singleton]
      exact noteBlock_eq n
    · have eL : List.intercalate ['\n'] ((n :: m :: t2).map noteBlock)
          = noteBlock n ++ ['\n'] ++ List.intercalate ['\n'] ((m :: t2).map noteBlock) := by
        rw [List.map_cons]
        exact intercalate_cons_of_ne_nil (by simp)
      have eR : List.intercalate ['\n', '\n'] ((n :: m :: t2).map blockBody)
          = blockBody n ++ ['\n', '\n']
            ++ List.intercalate ['\n', '\n'] ((m :: t2).map blockBody) := by
        rw [List.map_cons]
        exact intercalate_cons_of_ne_nil (by simp)
      rw [eL, ih (by simp), eR, noteBlock_eq n]
      simp

lemma sortNotesDesc_perm (l : List Note) : (sortNotesDesc l).Perm l :=
  List.perm_insertionSort tsGe l

lemma sortNotesDesc_sorted (l : List Note) : List.Pairwise tsGe (sortNotesDesc l) :=
  List.sorted_insertionSort tsGe l

lemma sortNotesDesc_ne_nil {l : List Note} (h : l ≠ []) : sortNotesDesc l ≠ [] := by
  intro he
  exact h (List.Perm.eq_nil ((sortNotesDesc_perm l).symm.trans (he ▸ List.Perm.refl _)))

lemma goodBlockNote_of_goodNote {localOff : Int} {n : Note} (h : goodNote localOff n) :
    goodBlockNote n :=
  ⟨h.1, goodContent_tidy h.2.1, h.2.2.1⟩

lemma filter_singleton_decomp {p : Note → Bool} {l : List Note} {n : Note}
    (h : l.filter p = [n]) :
    ∃ pre post, l = pre ++ n :: post ∧ (∀ x ∈ pre, p x = false) ∧ (∀ x ∈ post, p x = false) := by
  induction l with
  | nil => simp at h
  | cons a t ih =>
    by_cases hp : p a
    · rw [List.filter_cons_of_pos hp] at h
      rw [List.cons.injEq] at h
      obtain ⟨rfl, h2⟩ := h
      refine ⟨[], t, by simp, by simp, fun x hx => ?_⟩
      by_cases hq : p x
      · exfalso
        have : x ∈ t.filter p := List.mem_filter.mpr ⟨hx, hq⟩
        rw [h2] at this
        simp at this
      · simp [hq]
    · rw [List.filter_cons_of_neg hp] at h
      obtain ⟨pre, post, rfl, h1, h2⟩ := ih h
      exact ⟨a :: pre, post, rfl, fun x hx => by
        rcases List.mem_cons.mp hx with rfl | hx
        · simp [hp]
        · exact h1 x hx, h2⟩

lemma parseNotesFromText_save {now : DateTimeL} {localOff : Int} {sl : List Note}
    (hsl : ∀ n ∈ sl, goodNote localOff n) :
    parseNotesAux now localOff (rustLines (List.intercalate ['\n'] (sl.map noteBlock))) = sl := by
  rcases sl with _ | ⟨x, xs⟩
  · rfl
  · rw [rustLines_saveRaw (by simp) (fun n hn => goodBlockNote_of_goodNote (hsl n hn))]
    exact parseNotesAux_fileLines now localOff _ hsl

lemma nodup_addNote {hasher : List Char → Int → Nat → Nat} {st : MState} {content : List Char}
    {nowTs : DateTimeL} (h0 : (noteIds st.notes).Nodup)
    (hfresh : generateUniqueId hasher content (instantNanos nowTs) (noteIds st.notes)
      ∉ noteIds st.notes) :
    (noteIds (addNote hasher st content nowTs).2.notes).Nodup := by
  unfold addNote noteNew
  simp only [noteIds, List.map_append, List.map_singleton]
  rw [List.nodup_append]
  refine ⟨h0, List.nodup_singleton _, fun a ha hb => ?_⟩
  rw [List.mem_singleton] at hb
  exact hfresh (hb ▸ ha)

lemma removeNoteById_none {st : MState} {pre : List Char}
    (h : st.notes.filter (fun n => pre.isPrefixOf n.id) = []) :
    removeNoteById st pre = (RemoveResult.notFound, st) := by
  unfold removeNoteById
  rw [h]

lemma removeNoteById_one {st : MState} {pre : List Char} {n : Note}
    (h : st.notes.filter (fun n => pre.isPrefixOf n.id) = [n]) :
    removeNoteById st pre
      = (RemoveResult.removed n.id,
         MState.mk (st.notes.filter (fun m => decide (m.id ≠ n.id)))
           (saveNotesText (st.notes.filter (fun m => decide (m.id ≠ n.id))))) := by
  unfold removeNoteById
  rw [h]

lemma removeNoteById_many {st : MState} {pre : List Char} {a b : Note} {t : List Note}
    (h : st.notes.filter (fun n => pre.isPrefixOf n.id) = a :: b :: t) :
    removeNoteById st pre
      = (RemoveResult.ambiguous ((a :: b :: t).map (fun n => n.id)), st) := by
  unfold removeNoteById
  rw [h]

lemma nodup_removeNoteById {st : MState} {pre : List Char}
    (h0 : (noteIds st.notes).Nodup) :
    (noteIds (removeNoteById st pre).2.notes).Nodup := by
  rcases hm : st.notes.filter (fun n => pre.isPrefixOf n.id) with _ | ⟨a, _ | ⟨b, t⟩⟩
  · rw [removeNoteById_none hm]
    exact h0
  · rw [removeNoteById_one hm]
    exact ((List.filter_sublist _).map _).nodup h0
  · rw [removeNoteById_many hm]
    exact h0

/-! ### The claims -/

/-- Claim C5: remove_note_by_id matches the given string as a prefix against
all stored ids.  When no stored id starts with it, the result is NotFound and
the state (notes and file bytes alike) is returned unchanged; when exactly one
stored note's id starts with it, that one note is removed from its position,
every other note — none of which can share its id — is kept, the result is
Removed with the full id, and the file is rewritten from the remaining notes;
when two or more stored ids start with it, the result is Ambiguous listing all
matching ids in order and the state is returned unchanged. -/
theorem removeByPrefix_cases (st : MState) (pre : List Char) :
    (st.notes.filter (fun n => pre.isPrefixOf n.id) = [] →
      removeNoteById st pre = (RemoveResult.notFound, st))
    ∧ (∀ n, st.notes.filter (fun n => pre.isPrefixOf n.id) = [n] →
        ∃ p q, st.notes = p ++ n :: q ∧ (∀ x ∈ p, x.id ≠ n.id) ∧ (∀ x ∈ q, x.id ≠ n.id)
          ∧ removeNoteById st pre
            = (RemoveResult.removed n.id, MState.mk (p ++ q) (saveNotesText (p ++ q))))
    ∧ (∀ a b t, st.notes.filter (fun n => pre.isPrefixOf n.id) = a :: b :: t →
        removeNoteById st pre = (RemoveResult.ambiguous (noteIds (a :: b :: t)), st)) := by
  refine ⟨fun h => removeNoteById_none h, ?_, fun a b t h => removeNoteById_many h⟩
  intro n h
  have hnpre : pre.isPrefixOf n.id = true := by
    have hmem : n ∈ st.notes.filter (fun n => pre.isPrefixOf n.id) := by
      rw [h]
      exact List.mem_singleton_self n
    exact (List.mem_filter.mp hmem).2
  obtain ⟨p, q, hdec, hp, hq⟩ := filter_singleton_decomp h
  have hpid : ∀ x ∈ p, x.id ≠ n.id := by
    intro x hx he
    have hb : pre.isPrefixOf x.id = false := by simpa using hp x hx
    rw [he, hnpre] at hb
    exact Bool.noConfusion hb
  have hqid : ∀ x ∈ q, x.id ≠ n.id := by
    intro x hx he
    have hb : pre.isPrefixOf x.id = false := by simpa using hq x hx
    rw [he, hnpre] at hb
    exact Bool.noConfusion hb
  refine ⟨p, q, hdec, hpid, hqid, ?_⟩
  rw [removeNoteById_one h]
  have hfil : st.notes.filter (fun m => decide (m.id ≠ n.id)) = p ++ q := by
    rw [hdec, List.filter_append, List.filter_cons_of_neg (by simp)]
    rw [List.filter_eq_self.mpr (fun x hx => by simpa using hpid x hx),
        List.filter_eq_self.mpr (fun x hx => by simpa using hqid x hx)]
  rw [hfil]

/-- Witness for claim C5 at a concrete store: a prefix matching no stored id
reports NotFound and leaves the one-note state unchanged. -/
theorem removeByPrefix_cases_witness :
    removeNoteById (MState.mk [Note.mk (strC "aaaa") (strC "x")
        (DateTimeL.mk 2024 1 15 10 30 0 0 0)] []) (strC "bb")
      = (RemoveResult.notFound,
         MState.mk [Note.mk (strC "aaaa") (strC "x")
           (DateTimeL.mk 2024 1 15 10 30 0 0 0)] []) :=
  (removeByPrefix_cases (MState.mk [Note.mk (strC "aaaa") (strC "x")
      (DateTimeL.mk 2024 1 15 10 30 0 0 0)] []) (strC "bb")).1 (by decide)

/-- Claim C10: with the empty string as prefix every stored id matches, so
remove_note_by_id on an empty store reports NotFound, on a one-note store
removes that note (rewriting the file to the empty serialization), and on a
store of two or more notes reports Ambiguous with every stored id, leaving the
state unchanged. -/
theorem remove_empty_prefix_cases (st : MState) :
    (st.notes = [] → removeNoteById st [] = (RemoveResult.notFound, st))
    ∧ (∀ n, st.notes = [n] →
        removeNoteById st [] = (RemoveResult.removed n.id, MState.mk [] (saveNotesText [])))
    ∧ (∀ a b t, st.notes = a :: b :: t →
        removeNoteById st [] = (RemoveResult.ambiguous (noteIds st.notes), st)) := by
  have hfil : st.notes.filter (fun n => List.isPrefixOf [] n.id) = st.notes :=
    List.filter_eq_self.mpr (fun a _ => by cases a.id <;> rfl)
  refine ⟨fun h => removeNoteById_none (hfil.trans h), ?_, ?_⟩
  · intro n h
    rw [removeNoteById_one (hfil.trans h)]
    have h2 : st.notes.filter (fun m => decide (m.id ≠ n.id)) = [] := by
      rw [h, List.filter_cons_of_neg (by simp), List.filter_nil]
    rw [h2]
  · intro a b t h
    rw [removeNoteById_many (hfil.trans h), h]
    rfl

/-- Witness for claim C10 at a concrete store: removing with the empty prefix
from a one-note store removes that note. -/
theorem remove_empty_prefix_cases_witness :
    removeNoteById (MState.mk [Note.mk (strC "aaaa") (strC "x")
        (DateTimeL.mk 2024 1 15 10 30 0 0 0)] (strC "f")) []
      = (RemoveResult.removed (strC "aaaa"), MState.mk [] (saveNotesText [])) :=
  (remove_empty_prefix_cases (MState.mk [Note.mk (strC "aaaa") (strC "x")
      (DateTimeL.mk 2024 1 15 10 30 0 0 0)] (strC "f"))).2.1
    (Note.mk (strC "aaaa") (strC "x") (DateTimeL.mk 2024 1 15 10 30 0 0 0)) rfl

/-- Claim C7: the claim does not hold of the code.  chrono's
DateTime::parse_from_str can only build a zoned datetime when the format
string carries an offset item, so the fallback formats without %z never
succeed (parseYmdHmsNoTz is the constant none for that reason, and
`2024-01-15 10:30:00` fails the %z variant too).  Parsing the block whose
header is `#a1b2 2024-01-15 10:30:00` therefore yields a note whose
timestamp is the current local time `now` — whatever `now` is — rather than
10:30:00 on 2024-01-15. -/
theorem noTz_header_parses_to_now (now : DateTimeL) (localOff : Int) :
    parseNotesFromText now localOff (strC "#a1b2 2024-01-15 10:30:00\nhello\n")
      = [Note.mk (strC "a1b2") (strC "hello") now]
    ∧ parseTsChain now localOff (strC "2024-01-15 10:30:00") = now :=
  ⟨rfl, rfl⟩

/-- Claim C1 (counterexample): the round trip is not content-preserving for
every collection.  A one-note collection whose content is a backslash, the
delimiter and a letter comes back with the backslash stripped: the (id,
content) pairs of the parse of the serialization differ from the
collection's. -/
theorem roundtrip_cex :
    (parseNotesFromText (DateTimeL.mk 2024 1 15 10 30 0 0 0) 0
        (saveNotesText [Note.mk (strC "aaaa") (strC "\\#x")
          (DateTimeL.mk 2024 1 15 10 30 0 0 0)])).map (fun n => (n.id, n.content))
      ≠ [Note.mk (strC "aaaa") (strC "\\#x")
          (DateTimeL.mk 2024 1 15 10 30 0 0 0)].map (fun n => (n.id, n.content)) := by
  decide

/-- Claim C1 (amended): for collections of good notes — nonempty
whitespace-free ids; nonempty contents with no leading or trailing
whitespace or carriage returns whose delimiter-leading lines are unindented
and whose lines never lead with a backslash followed by the delimiter; and
in-range timestamps carrying the local offset — parsing the serialization
returns exactly the descending-timestamp sort of the collection by id,
content and full (hence second-precision) timestamp: a permutation of the
collection, regardless of its original order. -/
theorem roundtrip_of_goodNotes (now : DateTimeL) (localOff : Int) (N : List Note)
    (h : ∀ n ∈ N, goodNote localOff n) :
    parseNotesFromText now localOff (saveNotesText N) = sortNotesDesc N
    ∧ (parseNotesFromText now localOff (saveNotesText N)).Perm N := by
  have hs : ∀ n ∈ sortNotesDesc N, goodNote localOff n :=
    fun n hn => h n ((sortNotesDesc_perm N).mem_iff.mp hn)
  have main : parseNotesFromText now localOff (saveNotesText N) = sortNotesDesc N :=
    parseNotesFromText_save hs
  refine ⟨main, ?_⟩
  rw [main]
  exact sortNotesDesc_perm N

/-- Witness for claim C1 at a concrete collection of one good note. -/
theorem roundtrip_of_goodNotes_witness :
    parseNotesFromText (DateTimeL.mk 2024 1 15 10 30 0 0 0) 0
        (saveNotesText [Note.mk (strC "aaaa") (strC "hello")
          (DateTimeL.mk 2024 1 15 10 30 0 0 0)])
      = sortNotesDesc [Note.mk (strC "aaaa") (strC "hello")
          (DateTimeL.mk 2024 1 15 10 30 0 0 0)]
    ∧ (parseNotesFromText (DateTimeL.mk 2024 1 15 10 30 0 0 0) 0
        (saveNotesText [Note.mk (strC "aaaa") (strC "hello")
          (DateTimeL.mk 2024 1 15 10 30 0 0 0)])).Perm
        [Note.mk (strC "aaaa") (strC "hello") (DateTimeL.mk 2024 1 15 10 30 0 0 0)] :=
  roundtrip_of_goodNotes (DateTimeL.mk 2024 1 15 10 30 0 0 0) 0
    [Note.mk (strC "aaaa") (strC "hello") (DateTimeL.mk 2024 1 15 10 30 0 0 0)]
    (by decide)

/-- Claim C2 (counterexample): the escape-unescape pair is not the identity
on every content with delimiter-leading lines.  The claim's domain includes
contents whose lines start with a backslash-delimiter pair: such a line is
left alone by escaping (its post-indentation character is the backslash, not
the delimiter) but unescaping still strips its backslash, so the one-line
content backslash-delimiter-x comes back as delimiter-x. -/
theorem escape_unescape_cex :
    unescapeContent (escapeContent (strC "\\#x")) ≠ strC "\\#x" := by
  decide

/-- Claim C2 (amended): on content that is nonempty, free of carriage
returns, without a trailing newline, and all of whose lines are good — a
line whose first non-whitespace character is the delimiter starts with it
outright, and no line's leading non-whitespace characters are a backslash
followed by the delimiter — unescape_content inverts escape_content
exactly. -/
theorem unescape_escape_of_goodLines (x : List Char) (ht : tidyContent x)
    (hl : ∀ l ∈ splitNl x, goodLine l) :
    unescapeContent (escapeContent x) = x := by
  rw [escapeContent_tidy ht]
  exact unescape_escLines_core ht.2.1 (tidy_splitNl_last ht) hl

/-- Witness for claim C2 at a concrete two-line content whose first line
starts with the delimiter. -/
theorem unescape_escape_of_goodLines_witness :
    unescapeContent (escapeContent (strC "#a\nok")) = strC "#a\nok" :=
  unescape_escape_of_goodLines (strC "#a\nok") (by decide) (by decide)

/-- Claim C6 (counterexample): the serialized text does not always end
without a blank line.  A note with empty content (reachable through add,
whose content is the raw command-line text) serializes to a header line
followed by an empty content line, so the last line of the file is blank. -/
theorem save_trailing_blank_cex :
    (rustLines (saveNotesText [Note.mk (strC "aaaa") []
        (DateTimeL.mk 2024 1 15 10 30 0 0 0)])).getLast? = some [] := by
  decide

/-- Claim C6 (amended): for a nonempty collection of notes with
whitespace-free nonempty ids, in-range timestamps and tidy contents
(nonempty, carriage-return-free, no trailing newline), the serialization is
exactly the descending-timestamp sort's blocks joined by one blank line —
header line `#id <RFC3339>` then escaped content — with a single final
newline and no blank line before the first block or after the last: every
block body starts with the delimiter and does not end in a newline. -/
theorem save_format_of_goodBlocks (N : List Note) (hne : N ≠ [])
    (h : ∀ n ∈ N, goodBlockNote n) :
    saveNotesText N
      = List.intercalate ['\n', '\n'] ((sortNotesDesc N).map blockBody) ++ ['\n']
    ∧ (sortNotesDesc N).Perm N
    ∧ List.Pairwise tsGe (sortNotesDesc N)
    ∧ ∀ n ∈ N, (blockBody n).head? = some '#'
        ∧ ∀ d, (blockBody n).getLast? = some d → d ≠ '\n' := by
  refine ⟨saveRaw_intercalate (sortNotesDesc_ne_nil hne), sortNotesDesc_perm N,
    sortNotesDesc_sorted N, ?_⟩
  intro n hn
  obtain ⟨hid, ht, hv⟩ := h n hn
  constructor
  · have hb : blockBody n
        = '#' :: (n.id ++ ' ' :: toRFC3339 n.timestamp ++ '\n' :: escapeContent n.content) := by
      unfold blockBody
      rw [headerChars_eq]
      simp
    rw [hb]
    rfl
  · intro d hd hdn
    obtain ⟨hene, helast⟩ := escapeContent_shape ht
    unfold blockBody at hd
    rw [List.getLast?_append, getLast?_cons_of_ne_nil hene] at hd
    rcases he : (escapeContent n.content).getLast? with _ | e
    · rw [List.getLast?_eq_none_iff] at he
      exact hene he
    · rw [he] at hd
      simp only [Option.or] at hd
      rw [Option.some.injEq] at hd
      subst hd
      exact helast e he hdn

/-- Witness for claim C6 at a concrete one-note collection. -/
theorem save_format_of_goodBlocks_witness :
    saveNotesText [Note.mk (strC "aaaa") (strC "hello")
        (DateTimeL.mk 2024 1 15 10 30 0 0 0)]
      = List.intercalate ['\n', '\n']
          ((sortNotesDesc [Note.mk (strC "aaaa") (strC "hello")
            (DateTimeL.mk 2024 1 15 10 30 0 0 0)]).map blockBody) ++ ['\n'] :=
  (save_format_of_goodBlocks [Note.mk (strC "aaaa") (strC "hello")
      (DateTimeL.mk 2024 1 15 10 30 0 0 0)] (by decide) (by decide)).1

/-- Claim C3 (counterexample): same-batch import ids are not checked against
each other.  The conflict test of import_from_file compares each imported id
only against the ids captured before the loop, so importing a file whose two
blocks carry the same id into an empty store keeps both copies: the store
ends with a duplicated id. -/
theorem import_batch_duplicate_cex :
    ¬ (noteIds (importFromText (fun _ _ _ => 0) 0 (MState.mk [] [])
        (strC "#aaaa 2024-1-2\nx\n#aaaa 2024-1-2\ny")
        (DateTimeL.mk 2024 1 15 10 30 0 0 0)
        (DateTimeL.mk 2024 1 15 10 30 0 0 0)).2.notes).Nodup := by
  decide

/-- Claim C3 (amended): along any sequence of add and remove operations
started from a store with pairwise distinct ids, the ids stay pairwise
distinct, provided each add's generated id is fresh for the ids present at
that point — which is how the generator's retry loop exits on every run that
does not exhaust its 65537 attempts.  (Import is excluded: the
counterexample shows a same-batch import collision survives.) -/
theorem ids_nodup_of_traceFresh (hasher : List Char → Int → Nat → Nat) (st0 : MState)
    (ops : List Op) (h0 : (noteIds st0.notes).Nodup) (hf : TraceFresh hasher st0 ops) :
    (noteIds (applyOps hasher st0 ops).notes).Nodup := by
  induction ops generalizing st0 with
  | nil => exact h0
  | cons op rest ih =>
    obtain ⟨hop, hrest⟩ := hf
    have hstep : (noteIds (applyOp hasher st0 op).notes).Nodup := by
      rcases op with ⟨content, nowTs⟩ | pre
      · exact nodup_addNote h0 hop
      · exact nodup_removeNoteById h0
    have he : applyOps hasher st0 (op :: rest) = applyOps hasher (applyOp hasher st0 op) rest :=
      rfl
    rw [he]
    exact ih (applyOp hasher st0 op) hstep hrest

/-- Witness for claim C3 at a concrete trace of two adds and a remove, with
a concrete hash function whose candidates are fresh at both adds. -/
theorem ids_nodup_of_traceFresh_witness :
    (noteIds (applyOps (fun c _ _ => 4096 + c.length) (MState.mk [] [])
        [Op.add (strC "a") (DateTimeL.mk 2024 1 15 10 30 0 0 0),
         Op.add (strC "bb") (DateTimeL.mk 2024 1 15 10 30 0 0 0),
         Op.remove (strC "zz")]).notes).Nodup :=
  ids_nodup_of_traceFresh (fun c _ _ => 4096 + c.length) (MState.mk [] [])
    [Op.add (strC "a") (DateTimeL.mk 2024 1 15 10 30 0 0 0),
     Op.add (strC "bb") (DateTimeL.mk 2024 1 15 10 30 0 0 0),
     Op.remove (strC "zz")]
    (by decide) ⟨by decide, by decide, trivial, trivial⟩

/-- Claim C9: importing a text that parses to one note whose id already sits
in the store appends a note carrying a regenerated id and the imported
note's original timestamp and content, returns a count of one, and persists;
the regenerated id — fresh for the store's ids chained with the conflicting
one whenever the generator's retry loop exits through its check — differs
from every pre-import id and from the imported id, and the store grows by
exactly one note. -/
theorem import_conflict_regenerates (hasher : List Char → Int → Nat → Nat) (localOff : Int)
    (st : MState) (text : List Char) (now nowGen : DateTimeL) (n : Note)
    (htrim : trimC text ≠ [])
    (hparse : parseNotesFromText now localOff text = [n])
    (hcol : n.id ∈ noteIds st.notes)
    (hfresh : generateUniqueId hasher n.content (instantNanos nowGen)
        (noteIds st.notes ++ [n.id]) ∉ noteIds st.notes ++ [n.id]) :
    importFromText hasher localOff st text now nowGen
      = (1, MState.mk
          (st.notes ++ [Note.mk (generateUniqueId hasher n.content (instantNanos nowGen)
              (noteIds st.notes ++ [n.id])) n.content n.timestamp])
          (saveNotesText (st.notes ++ [Note.mk (generateUniqueId hasher n.content
              (instantNanos nowGen) (noteIds st.notes ++ [n.id])) n.content n.timestamp])))
    ∧ generateUniqueId hasher n.content (instantNanos nowGen) (noteIds st.notes ++ [n.id])
        ∉ noteIds st.notes
    ∧ generateUniqueId hasher n.content (instantNanos nowGen) (noteIds st.notes ++ [n.id])
        ≠ n.id
    ∧ (st.notes ++ [Note.mk (generateUniqueId hasher n.content (instantNanos nowGen)
        (noteIds st.notes ++ [n.id])) n.content n.timestamp]).length
        = st.notes.length + 1 := by
  have hcon : (noteIds st.notes).contains n.id = true := by
    simpa using hcol
  refine ⟨?_, fun hm => hfresh (List.mem_append_left _ hm),
    fun he => hfresh (List.mem_append_right _ (by rw [he]; exact List.mem_singleton_self _)),
    by simp⟩
  unfold importFromText
  rw [if_neg htrim, hparse]
  rw [if_neg (show ¬([n] = ([] : List Note)) from by simp)]
  have hstep : List.foldl (importStep hasher nowGen (noteIds st.notes)) (st.notes, 0) [n]
      = (st.notes ++ [Note.mk (generateUniqueId hasher n.content (instantNanos nowGen)
          (noteIds st.notes ++ [n.id])) n.content n.timestamp], 1) := by
    rw [List.foldl_cons, List.foldl_nil]
    unfold importStep
    rw [if_pos hcon]
    rfl
  rw [hstep]

/-- Witness for claim C9 at a concrete one-note store and a concrete
imported text whose note id collides with the stored one. -/
theorem import_conflict_regenerates_witness :
    generateUniqueId (fun _ _ _ => 4660) (strC "new")
        (instantNanos (DateTimeL.mk 2024 1 15 10 30 0 0 0))
        (noteIds [Note.mk (strC "aaaa") (strC "old") (DateTimeL.mk 2024 1 15 10 30 0 0 0)]
          ++ [strC "aaaa"])
      ∉ noteIds [Note.mk (strC "aaaa") (strC "old") (DateTimeL.mk 2024 1 15 10 30 0 0 0)] :=
  (import_conflict_regenerates (fun _ _ _ => 4660) 0
    (MState.mk [Note.mk (strC "aaaa") (strC "old") (DateTimeL.mk 2024 1 15 10 30 0 0 0)] [])
    (strC "#aaaa 2024-01-15T10:30:00+00:00\nnew\n")
    (DateTimeL.mk 2024 1 15 10 30 0 0 0) (DateTimeL.mk 2024 1 15 10 30 0 0 0)
    (Note.mk (strC "aaaa") (strC "new") (DateTimeL.mk 2024 1 15 10 30 0 0 0))
    (by decide) (by decide) (by decide) (by decide)).2.1

end NoteSpec
